import Mathlib

/-!
Verification of the dotfiles reconciliation engine in `src/index.mjs`.

The embedding models the target file tree as an association list from
relative paths (lists of path segments below `homeDir`) to entries, and the
source tree as a rose tree of named files and directories below `baseDir`.
Symbolic-link values are strings, because the ownership test of the code is
a raw textual prefix comparison (`readlink(target).startsWith(baseDir)`).
The walks `apply`, `ls` and `restore` are translated function by function
from the source; every filesystem mutation goes through `doMut`, the
counterpart of the `mutating` wrapper, which skips the underlying primitive
under dry-run and records the primitives actually invoked otherwise.
-/

namespace Udot

/-- A path relative to the target root `homeDir`, as a list of segments. -/
abbrev Path := List String

/-- An entry of the target file tree: a plain file with its content, a
directory, or a symbolic link carrying its raw (unresolved) link value. -/
inductive TEntry where
  | file (content : String)
  | dir
  | symlink (value : String)
  deriving DecidableEq, Repr

/-- The target file tree: an association list from relative paths to
entries.  The root `homeDir` itself is the key `[]`. -/
abbrev Fs := List (Path × TEntry)

/-- First-match lookup of a path in the target tree. -/
def Fs.lookup : Fs → Path → Option TEntry
  | [], _ => none
  | (q, e) :: rest, p => if q = p then some e else Fs.lookup rest p

/-- Record a new entry (the code only creates entries at absent paths). -/
def Fs.insertE (fs : Fs) (p : Path) (e : TEntry) : Fs := (p, e) :: fs

/-- Remove every record of a path (`unlink` / `rmdir`). -/
def Fs.erase : Fs → Path → Fs
  | [], _ => []
  | (q, e) :: rest, p =>
      if q = p then Fs.erase rest p else (q, e) :: Fs.erase rest p

/-- `fs.promises.access(path)`: succeeds exactly when the path has an entry. -/
def Fs.access (fs : Fs) (p : Path) : Except String Unit :=
  match fs.lookup p with
  | some _ => Except.ok ()
  | none => Except.error "ENOENT"

/-- `isExists` from the source: `access` with every failure caught and
turned into `false`. -/
def isExists (fs : Fs) (p : Path) : Bool :=
  match Fs.access fs p with
  | Except.ok _ => true
  | Except.error _ => false

/-- `fs.promises.lstat(path)`: the entry itself, an error if absent. -/
def Fs.lstatE (fs : Fs) (p : Path) : Except String TEntry :=
  match fs.lookup p with
  | some e => Except.ok e
  | none => Except.error "ENOENT"

/-- `fs.promises.readlink(path)`: the raw link value, an error otherwise. -/
def Fs.readlinkE (fs : Fs) (p : Path) : Except String String :=
  match fs.lookup p with
  | some (TEntry.symlink v) => Except.ok v
  | some _ => Except.error "EINVAL"
  | none => Except.error "ENOENT"

/-- Whether an entry is a symbolic link (`Stats.isSymbolicLink`). -/
def TEntry.isSymlink : TEntry → Bool
  | TEntry.symlink _ => true
  | _ => false

/-- `isSymbolicLinkExists` from the source: `lstat` in a try/catch, `false`
on any failure. -/
def isSymbolicLinkExists (fs : Fs) (p : Path) : Bool :=
  match Fs.lstatE fs p with
  | Except.ok e => e.isSymlink
  | Except.error _ => false

/-- JS `String.prototype.startsWith`: literal character-prefix test. -/
def strStartsWith (s pre : String) : Bool := pre.data.isPrefixOf s.data

/-- `isSymbolicLinkFrom` from the source: the target is a symbolic link and
its raw link value starts with the literal string `baseDir`.  The
`readlink` call is guarded by `isSymbolicLinkExists`, so its error branch
is unreachable in the code; it is mapped to `false` here. -/
def isSymbolicLinkFrom (fs : Fs) (target : Path) (baseDir : String) : Bool :=
  isSymbolicLinkExists fs target &&
    (match Fs.readlinkE fs target with
     | Except.ok v => strStartsWith v baseDir
     | Except.error _ => false)

/-- `path.join(baseDir, seg1, ..., segn)` as built up by the walks. -/
def joinPath (baseDir : String) (rel : Path) : String :=
  rel.foldl (fun acc n => acc ++ "/" ++ n) baseDir

/-- `q` is a direct child path of `p`. -/
def Path.isChildOf (q p : Path) : Bool := decide (q ≠ []) && decide (q.dropLast = p)

/-- `readdir(targetDir).length === 0` of the model: no recorded entry is a
direct child of `p`. -/
def Fs.dirEmpty (fs : Fs) (p : Path) : Bool :=
  fs.all (fun qe => !(Path.isChildOf qe.1 p))

/-- A filesystem mutation primitive, as named in the source. -/
inductive Mut where
  | mkdirM (p : Path)
  | symlinkM (value : String) (p : Path)
  | unlinkM (p : Path)
  | rmdirM (p : Path)
  deriving DecidableEq, Repr

/-- The effect of one mutation primitive on the target tree. -/
def mutApply (fs : Fs) : Mut → Fs
  | Mut.mkdirM p => fs.insertE p TEntry.dir
  | Mut.symlinkM v p => fs.insertE p (TEntry.symlink v)
  | Mut.unlinkM p => fs.erase p
  | Mut.rmdirM p => fs.erase p

/-- The `mutating` wrapper: under dry-run the primitive is skipped and a
benign placeholder results; otherwise the primitive runs and is recorded. -/
def doMut (dry : Bool) (fs : Fs) (m : Mut) : Fs × List Mut :=
  if dry then (fs, []) else (mutApply fs m, [m])

/-- A reported line: `+ target -> source` from apply, `- target` from
restore, and the two ls report forms. -/
inductive Log where
  | plus (target : Path) (source : String)
  | minus (target : Path)
  | linked (target : Path) (source : String)
  | unmanaged (target : Path)
  deriving DecidableEq, Repr

/-- The result of a walk: the target tree, the mutation primitives actually
invoked, in order, and the reported lines. -/
structure Out where
  fs : Fs
  muts : List Mut
  logs : List Log
  deriving Repr

mutual
/-- A node of the source tree below `baseDir`.  `readdir` entries that are
neither files nor directories are skipped by every walk in the source, so
they are not represented. -/
inductive Node where
  | file : Node
  | dir : Entries → Node

/-- The named entries of a source directory, in `readdir` order. -/
inductive Entries where
  | nil : Entries
  | cons : String → Node → Entries → Entries
end

/-- The entry names of a source directory. -/
def Entries.names : Entries → List String
  | Entries.nil => []
  | Entries.cons n _ rest => n :: Entries.names rest

mutual
/-- A realistic source tree: sibling names are distinct at every level. -/
def Node.wf : Node → Bool
  | Node.file => true
  | Node.dir es => Entries.wf es

def Entries.wf : Entries → Bool
  | Entries.nil => true
  | Entries.cons n node rest =>
      !((Entries.names rest).contains n) && Node.wf node && Entries.wf rest
end

mutual
/-- Relative target paths of the files of a subtree rooted at `rel`. -/
def Node.filePositions (rel : Path) : Node → List Path
  | Node.file => [rel]
  | Node.dir es => Entries.filePositions rel es

def Entries.filePositions (rel : Path) : Entries → List Path
  | Entries.nil => []
  | Entries.cons n node rest =>
      Node.filePositions (rel ++ [n]) node ++ Entries.filePositions rel rest
end

mutual
/-- Relative target paths of the directories of a subtree rooted at `rel`
(not counting `rel` itself for a directory node). -/
def Node.dirPositions (rel : Path) : Node → List Path
  | Node.file => []
  | Node.dir es => rel :: Entries.dirPositions rel es

def Entries.dirPositions (rel : Path) : Entries → List Path
  | Entries.nil => []
  | Entries.cons n node rest =>
      Node.dirPositions (rel ++ [n]) node ++ Entries.dirPositions rel rest
end

mutual
/-- One step of `apply`'s `processDir` loop body: skip ignored names; for a
file with absent target, log and create the symlink; for a directory,
create the target directory when absent and recurse. -/
def applyEntry (dry : Bool) (ign : String → Bool) (base : String)
    (rel : Path) (name : String) (node : Node) (fs : Fs) : Out :=
  if ign name then ⟨fs, [], []⟩ else
  match node with
  | Node.file =>
      let target := rel ++ [name]
      if isExists fs target then ⟨fs, [], []⟩
      else
        let r := doMut dry fs (Mut.symlinkM (joinPath base target) target)
        ⟨r.1, r.2, [Log.plus target (joinPath base target)]⟩
  | Node.dir children =>
      let target := rel ++ [name]
      let r := if isExists fs target then (fs, ([] : List Mut))
               else doMut dry fs (Mut.mkdirM target)
      let o := applyEntries dry ign base target children r.1
      ⟨o.fs, r.2 ++ o.muts, o.logs⟩

/-- `apply`'s `processDir` over the entries of one source directory. -/
def applyEntries (dry : Bool) (ign : String → Bool) (base : String)
    (rel : Path) (es : Entries) (fs : Fs) : Out :=
  match es with
  | Entries.nil => ⟨fs, [], []⟩
  | Entries.cons name node rest =>
      let o1 := applyEntry dry ign base rel name node fs
      let o2 := applyEntries dry ign base rel rest o1.fs
      ⟨o2.fs, o1.muts ++ o2.muts, o1.logs ++ o2.logs⟩
end

/-- `apply(baseDir, homeDir)`: create `homeDir` when absent, then walk the
source tree from `baseDir`. -/
def applyRun (dry : Bool) (ign : String → Bool) (base : String)
    (tree : Entries) (fs : Fs) : Out :=
  let r := if isExists fs [] then (fs, ([] : List Mut))
           else doMut dry fs (Mut.mkdirM [])
  let o := applyEntries dry ign base [] tree r.1
  ⟨o.fs, r.2 ++ o.muts, o.logs⟩

/-- The closing step of `restore`'s `processDir`: remove the mirrored
target directory when it exists, has become empty, and is not the target
root itself.  (When the mirrored target exists but is not a directory the
real `readdir` would fail; such runs crash in the code.) -/
def pruneDir (dry : Bool) (rel : Path) (o : Out) : Out :=
  if isExists o.fs rel && Fs.dirEmpty o.fs rel && decide (rel ≠ []) then
    let r := doMut dry o.fs (Mut.rmdirM rel)
    ⟨r.1, o.muts ++ r.2, o.logs⟩
  else o

mutual
/-- One step of `restore`'s `processDir` loop body: a file whose mirrored
target is a managed link is logged and unlinked; a directory is recursed
into unconditionally (no ignore rules here), then prune-checked. -/
def restoreEntry (dry : Bool) (base : String)
    (rel : Path) (name : String) (node : Node) (fs : Fs) : Out :=
  match node with
  | Node.file =>
      let target := rel ++ [name]
      if isSymbolicLinkFrom fs target base then
        let r := doMut dry fs (Mut.unlinkM target)
        ⟨r.1, r.2, [Log.minus target]⟩
      else ⟨fs, [], []⟩
  | Node.dir children =>
      pruneDir dry (rel ++ [name])
        (restoreEntries dry base (rel ++ [name]) children fs)

/-- The entry loop of `restore`'s `processDir`. -/
def restoreEntries (dry : Bool) (base : String)
    (rel : Path) (es : Entries) (fs : Fs) : Out :=
  match es with
  | Entries.nil => ⟨fs, [], []⟩
  | Entries.cons name node rest =>
      let o1 := restoreEntry dry base rel name node fs
      let o2 := restoreEntries dry base rel rest o1.fs
      ⟨o2.fs, o1.muts ++ o2.muts, o1.logs ++ o2.logs⟩
end

/-- `restore`'s `processDir` for a whole directory: the entry loop followed
by the prune check. -/
def restoreDir (dry : Bool) (base : String)
    (rel : Path) (children : Entries) (fs : Fs) : Out :=
  pruneDir dry rel (restoreEntries dry base rel children fs)

/-- Tree-mode `restore(homeDir, baseDir)`: walk from `baseDir`; the final
prune check on the root compares `targetDir` with `homeDir` and refuses. -/
def restoreTreeRun (dry : Bool) (base : String) (tree : Entries) (fs : Fs) : Out :=
  restoreDir dry base [] tree fs

/-- Single-path `restore(homeDir, baseDir, filePath)`: `lstat(filePath)` is
not wrapped in any catch, so its failure propagates.  A symbolic link is
unlinked unconditionally, a plain file is a no-op, and a directory becomes
the traversal root; `relAt`/`subtree` supply the source subtree that the
code would read back from disk at `filePath` in that last case. -/
def restoreSingle (dry : Bool) (base : String) (fs : Fs) (filePath : Path)
    (relAt : Path) (subtree : Entries) : Except String Out :=
  match Fs.lstatE fs filePath with
  | Except.error e => Except.error e
  | Except.ok (TEntry.symlink _) =>
      let r := doMut dry fs (Mut.unlinkM filePath)
      Except.ok ⟨r.1, r.2, [Log.minus filePath]⟩
  | Except.ok (TEntry.file _) => Except.ok ⟨fs, [], []⟩
  | Except.ok TEntry.dir => Except.ok (restoreDir dry base relAt subtree fs)

mutual
/-- One step of `ls`'s loop body: report each non-ignored file whose target
exists as linked or unmanaged; recurse into directories. -/
def lsEntry (ign : String → Bool) (base : String)
    (rel : Path) (name : String) (node : Node) (fs : Fs) : List Log :=
  if ign name then [] else
  match node with
  | Node.file =>
      let target := rel ++ [name]
      if isExists fs target then
        if isSymbolicLinkFrom fs target base then
          [Log.linked target (joinPath base target)]
        else [Log.unmanaged target]
      else []
  | Node.dir children => lsEntries ign base (rel ++ [name]) children fs

/-- `ls`'s `processDir` over one source directory. -/
def lsEntries (ign : String → Bool) (base : String)
    (rel : Path) (es : Entries) (fs : Fs) : List Log :=
  match es with
  | Entries.nil => []
  | Entries.cons name node rest =>
      lsEntry ign base rel name node fs ++ lsEntries ign base rel rest fs
end

/-- `ls(baseDir, homeDir)`: a no-op when either root is absent (the source
root is present by construction here, so only the target root is checked). -/
def lsRun (ign : String → Bool) (base : String) (tree : Entries) (fs : Fs) : List Log :=
  if isExists fs [] then lsEntries ign base [] tree fs else []

/-- Matching for one compiled ignore pattern: the code turns a pattern into
the regular expression built by escaping dots and translating each `*`
into "any sequence of characters", anchored at both ends.  For the pattern
alphabet the tool uses (names, dots, stars) this is whole-name glob
matching, with `*` consuming any portion of the name (the `List.tails`
disjunction); regex metacharacters other than `.` and `*` are left
unescaped by the code and are not modeled. -/
def globMatch : List Char → List Char → Bool
  | [], name => name.isEmpty
  | '*' :: ps, name => name.tails.any (fun suffix => globMatch ps suffix)
  | _ :: _, [] => false
  | c :: ps, d :: ns => c == d && globMatch ps ns

/-- The code's `replace(/\/$/, '')`: strip one trailing path separator. -/
def stripTrailingSlash (p : String) : String :=
  if p.data.getLast? == some '/' then String.mk p.data.dropLast else p

/-- One pattern applied to one base name. -/
def patMatch (p : String) (name : String) : Bool :=
  globMatch (stripTrailingSlash p).data name.data

/-- The built-in default ignore list used when the excludes-file is absent. -/
def defaultIgnorePatterns : List String :=
  [".gitignore", ".vscode", ".DS_Store", "node_modules",
   "package-lock.json", "package.json"]

/-- JS `String.prototype.trim` over the character list (ASCII whitespace;
the exotic JS whitespace code points do not occur in ignore files). -/
def trimChars (cs : List Char) : List Char :=
  ((cs.dropWhile Char.isWhitespace).reverse.dropWhile Char.isWhitespace).reverse

/-- JS `split('\n')` over the character list. -/
def splitNl : List Char → List (List Char)
  | [] => [[]]
  | c :: rest =>
      match splitNl rest with
      | [] => [[]]
      | l :: ls => if c == '\n' then [] :: l :: ls else (c :: l) :: ls

/-- `split('\n').map(trim).filter(nonempty)` over the excludes-file text. -/
def nonEmptyTrimmedLines (content : String) : List String :=
  (((splitNl content.data).map trimChars).filter (fun l => decide (l ≠ []))).map
    (fun l => String.mk l)

/-- The full pattern list of `getIgnoreFunction`: the excludes-file lines
when the file exists, otherwise the defaults; then always `.git`,
`README.md` and the explicit excludes. -/
def getIgnorePatterns (ignoreFileContent : Option String) (exclude : List String) :
    List String :=
  (match ignoreFileContent with
   | some content => nonEmptyTrimmedLines content
   | none => defaultIgnorePatterns) ++ [".git", "README.md"] ++ exclude

/-- `getIgnoreFunction` from the source, as a predicate over base names.
`ignoreFileContent` is `some` exactly when `isExists(ignoreFilePath)`. -/
def getIgnoreFunction (ignoreFileContent : Option String) (exclude : List String) :
    String → Bool :=
  fun name => (getIgnorePatterns ignoreFileContent exclude).any (fun p => patMatch p name)

/-- An invocation of an external command through `execSync`. -/
inductive GitEff where
  | exec (cmd : String)
  deriving DecidableEq, Repr

/-- `mutating(execSync)(cmd)`: skipped entirely under dry-run. -/
def mutatingExec (dry : Bool) (cmd : String) : List GitEff :=
  if dry then [] else [GitEff.exec cmd]

/-- `push(baseDir)`: `git status --porcelain` runs through plain
`execSync`, not through `mutating`; when the output is non-empty, three
wrapped git commands follow.  `statusOut` abstracts the status output. -/
def pushEffects (dry : Bool) (statusOut : String) : List GitEff :=
  [GitEff.exec "git status --porcelain"] ++
    (if statusOut.trim = "" then []
     else
       mutatingExec dry "git add -A" ++
       mutatingExec dry ("git commit -m \"" ++ statusOut.trim ++ "\"") ++
       mutatingExec dry "git push --set-upstream origin main --progress")

/-- `pull(cwd)`: the source calls `execSync('git pull --progress')`
directly, not through `mutating`, so the external command runs regardless
of the dry-run flag carried in the context. -/
def pullEffects (_dry : Bool) : List GitEff :=
  [GitEff.exec "git pull --progress"]

/-- The external commands of `update(baseDir, homeDir)`: push, then pull
(the final `apply` step touches no external command). -/
def updateEffects (dry : Bool) (statusOut : String) : List GitEff :=
  pushEffects dry statusOut ++ pullEffects dry

/-- Every recorded non-root path has its parent recorded: the flat model's
counterpart of "a child entry lives inside its parent directory". -/
def Fs.parentClosed (fs : Fs) : Bool :=
  fs.all (fun qe => qe.1.isEmpty || isExists fs qe.1.dropLast)

/-- Replay a list of mutation primitives over a target tree. -/
def replayMuts (fs : Fs) : List Mut → Fs
  | [] => fs
  | m :: ms => replayMuts (mutApply fs m) ms

/-- Conservative-pruning check over a mutation trace: every `rmdir` in the
trace removes a directory that is empty at that moment and is not the
target root. -/
def pruneSafeB (fs : Fs) : List Mut → Bool
  | [] => true
  | m :: ms =>
      (match m with
       | Mut.rmdirM p => Fs.dirEmpty fs p && decide (p ≠ [])
       | _ => true) && pruneSafeB (mutApply fs m) ms

/-- `rel` is a prefix of `q` (segmentwise). -/
def Path.lead : Path → Path → Bool
  | [], _ => true
  | _ :: _, [] => false
  | a :: rs, b :: qs => a == b && Path.lead rs qs

/-- `rel` is a strict prefix of `q`: `q` lies strictly below `rel`. -/
def Path.strictLead (rel q : Path) : Bool := Path.lead rel q && decide (rel ≠ q)

mutual
/-- The target paths apply guarantees to exist afterwards: the non-ignored
mirrored file and directory positions of the subtree (a file position for
a file node, the directory itself and, recursively, the positions of its
non-ignored entries for a directory node). -/
def Node.reqPositions (ign : String → Bool) (rel : Path) : Node → List Path
  | Node.file => [rel]
  | Node.dir es => rel :: Entries.reqPositions ign rel es

def Entries.reqPositions (ign : String → Bool) (rel : Path) : Entries → List Path
  | Entries.nil => []
  | Entries.cons n node rest =>
      (if ign n then [] else Node.reqPositions ign (rel ++ [n]) node) ++
        Entries.reqPositions ign rel rest
end

theorem Fs.lookup_insertE (fs : Fs) (p q : Path) (e : TEntry) :
    (fs.insertE p e).lookup q = if p = q then some e else fs.lookup q := by
  simp [Fs.insertE, Fs.lookup]

theorem Fs.lookup_erase (fs : Fs) (p q : Path) :
    (fs.erase p).lookup q = if q = p then none else fs.lookup q := by
  induction fs with
  | nil => simp only [Fs.erase, Fs.lookup]; split <;> rfl
  | cons head tail ih =>
      obtain ⟨r, e⟩ := head
      by_cases hrp : r = p
      · subst hrp
        rw [show Fs.erase ((r, e) :: tail) r = Fs.erase tail r from by
          simp [Fs.erase]]
        rw [ih]
        by_cases hqp : q = r
        · simp [hqp]
        · have hrq : ¬r = q := fun h => hqp h.symm
          simp [Fs.lookup, hqp, hrq]
      · rw [show Fs.erase ((r, e) :: tail) p = (r, e) :: Fs.erase tail p from by
          simp [Fs.erase, hrp]]
        by_cases hrq : r = q
        · subst hrq
          simp [Fs.lookup, hrp]
        · simp only [Fs.lookup, if_neg hrq, ih]

theorem isExists_eq (fs : Fs) (p : Path) : isExists fs p = (fs.lookup p).isSome := by
  unfold isExists Fs.access
  cases fs.lookup p <;> simp

theorem Fs.lookup_eq_none_iff (fs : Fs) (p : Path) :
    fs.lookup p = none ↔ ∀ e, (p, e) ∉ fs := by
  induction fs with
  | nil => simp [Fs.lookup]
  | cons head tail ih =>
      obtain ⟨r, e⟩ := head
      by_cases hrp : r = p
      · subst hrp
        simp only [Fs.lookup, if_pos rfl]
        constructor
        · intro h; cases h
        · intro h; exact absurd (List.mem_cons_self _ _) (h e)
      · simp only [Fs.lookup, if_neg hrp, ih]
        constructor
        · intro h e' hmem
          rcases List.mem_cons.1 hmem with heq | hmem'
          · exact hrp (congrArg Prod.fst heq).symm
          · exact h e' hmem'
        · intro h e' hmem'
          exact h e' (List.mem_cons_of_mem _ hmem')

theorem Path.isChildOf_iff (q p : Path) :
    Path.isChildOf q p = true ↔ ∃ n, q = p ++ [n] := by
  unfold Path.isChildOf
  constructor
  · intro h
    simp only [Bool.and_eq_true, decide_eq_true_eq] at h
    obtain ⟨hne, hdrop⟩ := h
    refine ⟨q.getLast hne, ?_⟩
    rw [← hdrop]
    exact (List.dropLast_append_getLast hne).symm
  · rintro ⟨n, rfl⟩
    simp [List.dropLast_concat]

theorem Fs.dirEmpty_iff (fs : Fs) (p : Path) :
    Fs.dirEmpty fs p = true ↔ ∀ q, Path.isChildOf q p = true → fs.lookup q = none := by
  unfold Fs.dirEmpty
  rw [List.all_eq_true]
  constructor
  · intro h q hq
    rw [Fs.lookup_eq_none_iff]
    intro e hmem
    have := h (q, e) hmem
    simp [hq] at this
  · intro h qe hmem
    simp only [Bool.not_eq_true']
    by_contra hc
    simp only [Bool.not_eq_false] at hc
    have := h qe.1 hc
    rw [Fs.lookup_eq_none_iff] at this
    exact this qe.2 hmem

theorem Path.lead_iff (rel q : Path) :
    Path.lead rel q = true ↔ ∃ s, q = rel ++ s := by
  induction rel generalizing q with
  | nil => simp [Path.lead]
  | cons a rs ih =>
      cases q with
      | nil => simp [Path.lead]
      | cons b qs =>
          simp only [Path.lead, Bool.and_eq_true, beq_iff_eq, ih]
          constructor
          · rintro ⟨rfl, s, rfl⟩; exact ⟨s, rfl⟩
          · rintro ⟨s, h⟩
            obtain ⟨h1, h2⟩ := List.cons.injEq .. ▸ h
            exact ⟨h1.symm, s, h2⟩

theorem Path.strictLead_iff (rel q : Path) :
    Path.strictLead rel q = true ↔ ∃ n s, q = rel ++ n :: s := by
  unfold Path.strictLead
  simp only [Bool.and_eq_true, decide_eq_true_eq, Path.lead_iff]
  constructor
  · rintro ⟨⟨s, rfl⟩, hne⟩
    cases s with
    | nil => simp at hne
    | cons n t => exact ⟨n, t, rfl⟩
  · rintro ⟨n, s, rfl⟩
    exact ⟨⟨n :: s, rfl⟩, by simp⟩

theorem Path.seg_unique {rel : Path} {n m : String} {s t : Path}
    (h : rel ++ n :: s = rel ++ m :: t) : n = m := by
  have := List.append_cancel_left h
  exact (List.cons.injEq .. ▸ this).1

theorem strStartsWith_append (b t : String) : strStartsWith (b ++ t) b = true := by
  unfold strStartsWith
  rw [List.isPrefixOf_iff_prefix]
  exact ⟨t.data, (String.data_append b t).symm⟩

theorem joinPath_eq_append (b : String) (rel : Path) :
    ∃ t, joinPath b rel = b ++ t := by
  induction rel generalizing b with
  | nil => exact ⟨"", (String.append_empty b).symm⟩
  | cons n rest ih =>
      obtain ⟨t, ht⟩ := ih (b ++ "/" ++ n)
      refine ⟨"/" ++ n ++ t, ?_⟩
      have h1 : joinPath b (n :: rest) = joinPath (b ++ "/" ++ n) rest := rfl
      rw [h1, ht, String.append_assoc, String.append_assoc,
        String.append_assoc]

theorem joinPath_startsWith (b : String) (rel : Path) :
    strStartsWith (joinPath b rel) b = true := by
  obtain ⟨t, ht⟩ := joinPath_eq_append b rel
  rw [ht]; exact strStartsWith_append b t

theorem isSymbolicLinkFrom_eq (fs : Fs) (p : Path) (b : String) :
    isSymbolicLinkFrom fs p b =
      (match fs.lookup p with
       | some (TEntry.symlink v) => strStartsWith v b
       | _ => false) := by
  unfold isSymbolicLinkFrom isSymbolicLinkExists Fs.lstatE Fs.readlinkE TEntry.isSymlink
  cases h : fs.lookup p with
  | none => simp
  | some e => cases e <;> simp

theorem isSymbolicLinkFrom_congr {fs fs' : Fs} {p : Path} (b : String)
    (h : fs.lookup p = fs'.lookup p) :
    isSymbolicLinkFrom fs p b = isSymbolicLinkFrom fs' p b := by
  rw [isSymbolicLinkFrom_eq, isSymbolicLinkFrom_eq, h]

theorem Fs.lookup_mem {fs : Fs} {p : Path} {e : TEntry} (h : fs.lookup p = some e) :
    (p, e) ∈ fs := by
  induction fs with
  | nil => simp [Fs.lookup] at h
  | cons head tail ih =>
      obtain ⟨r, e'⟩ := head
      by_cases hrp : r = p <;> simp [Fs.lookup, hrp] at h
      · subst hrp; subst h; simp
      · exact List.mem_cons_of_mem _ (ih h)

theorem isExists_insertE (fs : Fs) (p q : Path) (e : TEntry) :
    isExists fs q = true → isExists (fs.insertE p e) q = true := by
  simp only [isExists_eq, Fs.lookup_insertE]
  by_cases h : p = q <;> simp [h]

theorem Fs.parentClosed_insertE {fs : Fs} {p : Path} (e : TEntry)
    (hcl : Fs.parentClosed fs = true)
    (hp : p = [] ∨ isExists fs p.dropLast = true) :
    Fs.parentClosed (fs.insertE p e) = true := by
  unfold Fs.parentClosed at hcl ⊢
  rw [List.all_eq_true] at hcl ⊢
  intro qe hmem
  simp only [Fs.insertE, List.mem_cons] at hmem
  rcases hmem with rfl | hmem
  · rcases hp with hp | hp
    · simp [hp]
    · simp only [Bool.or_eq_true]
      exact Or.inr (isExists_insertE _ _ _ _ hp)
  · have := hcl qe hmem
    simp only [Bool.or_eq_true] at this ⊢
    rcases this with h | h
    · exact Or.inl h
    · exact Or.inr (isExists_insertE _ _ _ _ h)

theorem Path.lead_refl (rel : Path) : Path.lead rel rel = true :=
  (Path.lead_iff rel rel).2 ⟨[], (List.append_nil rel).symm⟩

theorem Path.lead_of_cons_ext {rel : Path} {n : String} {p : Path}
    (h : Path.lead (rel ++ [n]) p = true) : ∃ s, p = rel ++ n :: s := by
  obtain ⟨s, rfl⟩ := (Path.lead_iff _ _).1 h
  exact ⟨s, by simp⟩

mutual
theorem mem_filePositions_node {p : Path} :
    ∀ (rel : Path) (t : Node),
      p ∈ Node.filePositions rel t → Path.lead rel p = true
  | rel, Node.file, h => by
      simp only [Node.filePositions, List.mem_singleton] at h
      subst h; exact Path.lead_refl _
  | rel, Node.dir es, h => by
      simp only [Node.filePositions] at h
      obtain ⟨n, s, _, rfl⟩ := mem_filePositions_entries rel es h
      exact (Path.lead_iff _ _).2 ⟨n :: s, rfl⟩

theorem mem_filePositions_entries {p : Path} :
    ∀ (rel : Path) (es : Entries),
      p ∈ Entries.filePositions rel es →
        ∃ n s, n ∈ es.names ∧ p = rel ++ n :: s
  | _, Entries.nil, h => by simp [Entries.filePositions] at h
  | rel, Entries.cons name node rest, h => by
      simp only [Entries.filePositions, List.mem_append] at h
      rcases h with h | h
      · have hl := mem_filePositions_node (rel ++ [name]) node h
        obtain ⟨s, rfl⟩ := Path.lead_of_cons_ext hl
        exact ⟨name, s, by simp [Entries.names], rfl⟩
      · obtain ⟨n, s, hn, rfl⟩ := mem_filePositions_entries rel rest h
        exact ⟨n, s, by simp [Entries.names, hn], rfl⟩
end

mutual
theorem mem_dirPositions_node {p : Path} :
    ∀ (rel : Path) (t : Node),
      p ∈ Node.dirPositions rel t → Path.lead rel p = true
  | _, Node.file, h => by simp [Node.dirPositions] at h
  | rel, Node.dir es, h => by
      simp only [Node.dirPositions, List.mem_cons] at h
      rcases h with rfl | h
      · exact Path.lead_refl _
      · obtain ⟨n, s, _, rfl⟩ := mem_dirPositions_entries rel es h
        exact (Path.lead_iff _ _).2 ⟨n :: s, rfl⟩

theorem mem_dirPositions_entries {p : Path} :
    ∀ (rel : Path) (es : Entries),
      p ∈ Entries.dirPositions rel es →
        ∃ n s, n ∈ es.names ∧ p = rel ++ n :: s
  | _, Entries.nil, h => by simp [Entries.dirPositions] at h
  | rel, Entries.cons name node rest, h => by
      simp only [Entries.dirPositions, List.mem_append] at h
      rcases h with h | h
      · have hl := mem_dirPositions_node (rel ++ [name]) node h
        obtain ⟨s, rfl⟩ := Path.lead_of_cons_ext hl
        exact ⟨name, s, by simp [Entries.names], rfl⟩
      · obtain ⟨n, s, hn, rfl⟩ := mem_dirPositions_entries rel rest h
        exact ⟨n, s, by simp [Entries.names, hn], rfl⟩
end

theorem self_not_mem_filePositions_entries (rel : Path) (es : Entries) :
    rel ∉ Entries.filePositions rel es := by
  intro h
  obtain ⟨n, s, _, heq⟩ := mem_filePositions_entries rel es h
  have : rel.length = rel.length + (n :: s).length := by
    conv_lhs => rw [heq]
    simp
  simp at this

theorem self_not_mem_dirPositions_entries (rel : Path) (es : Entries) :
    rel ∉ Entries.dirPositions rel es := by
  intro h
  obtain ⟨n, s, _, heq⟩ := mem_dirPositions_entries rel es h
  have : rel.length = rel.length + (n :: s).length := by
    conv_lhs => rw [heq]
    simp
  simp at this

mutual
theorem filePos_dirPos_disjoint_node {p : Path} :
    ∀ (rel : Path) (t : Node), Node.wf t = true →
      p ∈ Node.filePositions rel t → p ∉ Node.dirPositions rel t
  | rel, Node.file, _, _ => by simp [Node.dirPositions]
  | rel, Node.dir es, hwf, hf => by
      simp only [Node.filePositions] at hf
      simp only [Node.dirPositions, List.mem_cons, not_or]
      refine ⟨?_, ?_⟩
      · rintro rfl
        exact self_not_mem_filePositions_entries _ es hf
      · exact filePos_dirPos_disjoint_entries rel es (by simpa [Node.wf] using hwf) hf

theorem filePos_dirPos_disjoint_entries {p : Path} :
    ∀ (rel : Path) (es : Entries), Entries.wf es = true →
      p ∈ Entries.filePositions rel es → p ∉ Entries.dirPositions rel es
  | _, Entries.nil, _, hf => by simp [Entries.filePositions] at hf
  | rel, Entries.cons name node rest, hwf, hf => by
      simp only [Entries.wf, Bool.and_eq_true, Bool.not_eq_true'] at hwf
      obtain ⟨⟨hnm, hwn⟩, hwr⟩ := hwf
      simp only [Entries.filePositions, List.mem_append] at hf
      simp only [Entries.dirPositions, List.mem_append, not_or]
      rcases hf with hf | hf
      · refine ⟨filePos_dirPos_disjoint_node (rel ++ [name]) node hwn hf, ?_⟩
        intro hd
        obtain ⟨s, rfl⟩ :=
          Path.lead_of_cons_ext (mem_filePositions_node (rel ++ [name]) node hf)
        obtain ⟨m, t, hm, heq⟩ := mem_dirPositions_entries rel rest hd
        have : name = m := Path.seg_unique heq
        subst this
        simp [List.elem_iff, hm] at hnm
      · obtain ⟨m, t, hm, rfl⟩ := mem_filePositions_entries rel rest hf
        refine ⟨?_, filePos_dirPos_disjoint_entries rel rest hwr hf⟩
        intro hd
        obtain ⟨s, heq⟩ :=
          Path.lead_of_cons_ext (mem_dirPositions_node (rel ++ [name]) node hd)
        have : m = name := Path.seg_unique heq
        subst this
        simp [List.elem_iff, hm] at hnm
end

theorem Fs.closed_child_none {fs : Fs} {p q : Path}
    (hcl : Fs.parentClosed fs = true)
    (hnone : fs.lookup p = none) (hq : Path.isChildOf q p = true) :
    fs.lookup q = none := by
  cases hlq : fs.lookup q with
  | none => rfl
  | some e =>
      exfalso
      have hmem := Fs.lookup_mem hlq
      unfold Fs.parentClosed at hcl
      rw [List.all_eq_true] at hcl
      have := hcl (q, e) hmem
      obtain ⟨n, rfl⟩ := (Path.isChildOf_iff q p).1 hq
      simp only [Bool.or_eq_true, List.isEmpty_eq_true, List.append_eq_nil] at this
      rcases this with ⟨_, h⟩ | h
      · exact List.cons_ne_nil _ _ h
      · rw [List.dropLast_concat] at h
        rw [isExists_eq, hnone] at h
        simp at h

end Udot

namespace Udot

theorem lookup_none_of_not_exists {fs : Fs} {p : Path}
    (h : isExists fs p = false) : fs.lookup p = none := by
  rw [isExists_eq] at h
  exact Option.not_isSome_iff_eq_none.1 (by simp [h])

theorem exists_of_lookup_some {fs : Fs} {p : Path} {e : TEntry}
    (h : fs.lookup p = some e) : isExists fs p = true := by
  rw [isExists_eq, h]; rfl

mutual
theorem applyEntry_preserve {p : Path} {e : TEntry} :
    ∀ (dry : Bool) (ign : String → Bool) (base : String) (rel : Path)
      (name : String) (node : Node) (fs : Fs),
      fs.lookup p = some e →
      ((applyEntry dry ign base rel name node fs).fs).lookup p = some e
  | dry, ign, base, rel, name, Node.file, fs, h => by
      unfold applyEntry
      by_cases hig : ign name = true
      · simp [hig, h]
      · by_cases hex : isExists fs (rel ++ [name]) = true
        · simp [hig, hex, h]
        · simp only [Bool.not_eq_true] at hex
          have hnone := lookup_none_of_not_exists hex
          have hne : rel ++ [name] ≠ p := fun hq => by
            rw [hq, h] at hnone; cases hnone
          cases dry <;>
            simp [hig, hex, doMut, mutApply, Fs.lookup_insertE, hne, h]
  | dry, ign, base, rel, name, Node.dir cs, fs, h => by
      unfold applyEntry
      by_cases hig : ign name = true
      · simp [hig, h]
      · by_cases hex : isExists fs (rel ++ [name]) = true
        · simp only [hig, Bool.false_eq_true, if_false, hex, if_true]
          exact applyEntries_preserve dry ign base (rel ++ [name]) cs fs h
        · simp only [Bool.not_eq_true] at hex
          have hnone := lookup_none_of_not_exists hex
          have hne : rel ++ [name] ≠ p := fun hq => by
            rw [hq, h] at hnone; cases hnone
          have h2 : ((if isExists fs (rel ++ [name]) then (fs, ([] : List Mut))
              else doMut dry fs (Mut.mkdirM (rel ++ [name]))).1).lookup p = some e := by
            cases dry <;> simp [hex, doMut, mutApply, Fs.lookup_insertE, hne, h]
          simp only [hig, Bool.false_eq_true, if_false]
          exact applyEntries_preserve dry ign base (rel ++ [name]) cs _ h2

theorem applyEntries_preserve {p : Path} {e : TEntry} :
    ∀ (dry : Bool) (ign : String → Bool) (base : String) (rel : Path)
      (es : Entries) (fs : Fs),
      fs.lookup p = some e →
      ((applyEntries dry ign base rel es fs).fs).lookup p = some e
  | dry, ign, base, rel, Entries.nil, fs, h => by simpa [applyEntries] using h
  | dry, ign, base, rel, Entries.cons name node rest, fs, h => by
      have h1 := applyEntry_preserve dry ign base rel name node fs h
      have h2 := applyEntries_preserve dry ign base rel rest _ h1
      simpa [applyEntries] using h2
end

theorem applyEntries_exists_mono {p : Path}
    (dry : Bool) (ign : String → Bool) (base : String) (rel : Path)
    (es : Entries) (fs : Fs) (h : isExists fs p = true) :
    isExists ((applyEntries dry ign base rel es fs).fs) p = true := by
  rw [isExists_eq] at h
  cases hl : fs.lookup p with
  | none => rw [hl] at h; cases h
  | some e => exact exists_of_lookup_some (applyEntries_preserve dry ign base rel es fs hl)

theorem applyEntries_allIgn :
    ∀ (dry : Bool) (base : String) (rel : Path) (es : Entries) (fs : Fs),
      applyEntries dry (fun _ => true) base rel es fs = ⟨fs, [], []⟩
  | dry, base, rel, Entries.nil, fs => by simp [applyEntries]
  | dry, base, rel, Entries.cons n node rest, fs => by
      have h1 : applyEntry dry (fun _ => true) base rel n node fs = ⟨fs, [], []⟩ := by
        unfold applyEntry; cases node <;> simp
      simp [applyEntries, h1, applyEntries_allIgn dry base rel rest fs]

mutual
theorem applyEntry_frame {p : Path} :
    ∀ (dry : Bool) (ign : String → Bool) (base : String) (rel : Path)
      (name : String) (node : Node) (fs : Fs),
      p ∉ Node.filePositions (rel ++ [name]) node →
      p ∉ Node.dirPositions (rel ++ [name]) node →
      ((applyEntry dry ign base rel name node fs).fs).lookup p = fs.lookup p
  | dry, ign, base, rel, name, Node.file, fs, hf, _ => by
      unfold applyEntry
      by_cases hig : ign name = true
      · simp [hig]
      · by_cases hex : isExists fs (rel ++ [name]) = true
        · simp [hig, hex]
        · have hne : rel ++ [name] ≠ p := fun hq => by
            apply hf; simp [Node.filePositions, hq]
          cases dry <;> simp [hig, hex, doMut, mutApply, Fs.lookup_insertE, hne]
  | dry, ign, base, rel, name, Node.dir cs, fs, hf, hd => by
      unfold applyEntry
      simp only [Node.filePositions] at hf
      simp only [Node.dirPositions, List.mem_cons, not_or] at hd
      obtain ⟨hne, hd⟩ := hd
      by_cases hig : ign name = true
      · simp [hig]
      · have h2 : ((if isExists fs (rel ++ [name]) then (fs, ([] : List Mut))
            else doMut dry fs (Mut.mkdirM (rel ++ [name]))).1).lookup p = fs.lookup p := by
          by_cases hex : isExists fs (rel ++ [name]) = true
          · simp [hex]
          · have hne' : ¬(rel ++ [name] = p) := fun hq => hne hq.symm
            cases dry <;>
              simp [hex, doMut, mutApply, Fs.lookup_insertE, hne']
        simp only [hig, Bool.false_eq_true, if_false]
        rw [applyEntries_frame dry ign base (rel ++ [name]) cs _ hf hd, h2]

theorem applyEntries_frame {p : Path} :
    ∀ (dry : Bool) (ign : String → Bool) (base : String) (rel : Path)
      (es : Entries) (fs : Fs),
      p ∉ Entries.filePositions rel es →
      p ∉ Entries.dirPositions rel es →
      ((applyEntries dry ign base rel es fs).fs).lookup p = fs.lookup p
  | dry, ign, base, rel, Entries.nil, fs, _, _ => by simp [applyEntries]
  | dry, ign, base, rel, Entries.cons name node rest, fs, hf, hd => by
      simp only [Entries.filePositions, List.mem_append, not_or] at hf
      simp only [Entries.dirPositions, List.mem_append, not_or] at hd
      have h1 := applyEntry_frame dry ign base rel name node fs hf.1 hd.1
      have h2 := applyEntries_frame dry ign base rel rest
        ((applyEntry dry ign base rel name node fs).fs) hf.2 hd.2
      simpa [applyEntries] using h2.trans h1
end

end Udot

namespace Udot

mutual
theorem applyEntry_post {p : Path} :
    ∀ (ign : String → Bool) (base : String) (rel : Path)
      (name : String) (node : Node) (fs : Fs),
      ign name = false →
      p ∈ Node.reqPositions ign (rel ++ [name]) node →
      isExists ((applyEntry false ign base rel name node fs).fs) p = true
  | ign, base, rel, name, Node.file, fs, hig, hmem => by
      simp only [Node.reqPositions, List.mem_singleton] at hmem
      subst hmem
      unfold applyEntry
      by_cases hex : isExists fs (rel ++ [name]) = true
      · simp [hig, hex]
      · simp [hig, hex, doMut, mutApply, isExists_eq, Fs.lookup_insertE]
  | ign, base, rel, name, Node.dir cs, fs, hig, hmem => by
      simp only [Node.reqPositions, List.mem_cons] at hmem
      unfold applyEntry
      simp only [hig, Bool.false_eq_true, if_false]
      have hex1 : isExists ((if isExists fs (rel ++ [name]) then (fs, ([] : List Mut))
          else doMut false fs (Mut.mkdirM (rel ++ [name]))).1) (rel ++ [name]) = true := by
        by_cases hex : isExists fs (rel ++ [name]) = true
        · simp [hex]
        · simp [hex, doMut, mutApply, isExists_eq, Fs.lookup_insertE]
      rcases hmem with rfl | hmem
      · exact applyEntries_exists_mono false ign base (rel ++ [name]) cs _ hex1
      · exact applyEntries_post ign base (rel ++ [name]) cs _ hmem

theorem applyEntries_post {p : Path} :
    ∀ (ign : String → Bool) (base : String) (rel : Path)
      (es : Entries) (fs : Fs),
      p ∈ Entries.reqPositions ign rel es →
      isExists ((applyEntries false ign base rel es fs).fs) p = true
  | ign, base, rel, Entries.nil, fs, hmem => by
      simp [Entries.reqPositions] at hmem
  | ign, base, rel, Entries.cons name node rest, fs, hmem => by
      simp only [Entries.reqPositions, List.mem_append] at hmem
      have hout : (applyEntries false ign base rel (Entries.cons name node rest) fs).fs
          = (applyEntries false ign base rel rest
              ((applyEntry false ign base rel name node fs).fs)).fs := by
        simp [applyEntries]
      rcases hmem with hmem | hmem
      · by_cases hig : ign name = true
        · simp [hig] at hmem
        · simp only [Bool.not_eq_true] at hig
          simp only [hig, Bool.false_eq_true, if_false] at hmem
          have h1 := applyEntry_post ign base rel name node fs hig hmem
          rw [hout]
          rw [isExists_eq] at h1
          cases hl : ((applyEntry false ign base rel name node fs).fs).lookup p with
          | none => rw [hl] at h1; cases h1
          | some e =>
              exact exists_of_lookup_some
                (applyEntries_preserve false ign base rel rest _ hl)
      · rw [hout]
        exact applyEntries_post ign base rel rest _ hmem
end

mutual
theorem applyEntry_noop :
    ∀ (ign : String → Bool) (base : String) (rel : Path)
      (name : String) (node : Node) (fs : Fs),
      ign name = false →
      (∀ p, p ∈ Node.reqPositions ign (rel ++ [name]) node → isExists fs p = true) →
      applyEntry false ign base rel name node fs = ⟨fs, [], []⟩
  | ign, base, rel, name, Node.file, fs, hig, hall => by
      have hex := hall (rel ++ [name]) (by simp [Node.reqPositions])
      unfold applyEntry
      simp [hig, hex]
  | ign, base, rel, name, Node.dir cs, fs, hig, hall => by
      have hex := hall (rel ++ [name]) (by simp [Node.reqPositions])
      have hrest := applyEntries_noop ign base (rel ++ [name]) cs fs
        (fun p hp => hall p (by simp [Node.reqPositions, hp]))
      unfold applyEntry
      simp [hig, hex, hrest]

theorem applyEntries_noop :
    ∀ (ign : String → Bool) (base : String) (rel : Path)
      (es : Entries) (fs : Fs),
      (∀ p, p ∈ Entries.reqPositions ign rel es → isExists fs p = true) →
      applyEntries false ign base rel es fs = ⟨fs, [], []⟩
  | ign, base, rel, Entries.nil, fs, _ => by simp [applyEntries]
  | ign, base, rel, Entries.cons name node rest, fs, hall => by
      have h1 : applyEntry false ign base rel name node fs = ⟨fs, [], []⟩ := by
        by_cases hig : ign name = true
        · unfold applyEntry; simp [hig]
        · simp only [Bool.not_eq_true] at hig
          refine applyEntry_noop ign base rel name node fs hig (fun p hp => ?_)
          exact hall p (by simp [Entries.reqPositions, hig, hp])
      have h2 := applyEntries_noop ign base rel rest fs
        (fun p hp => hall p (by simp [Entries.reqPositions, hp]))
      simp [applyEntries, h1, h2]
end

theorem applyRun_root_exists (ign : String → Bool) (base : String)
    (tree : Entries) (fs : Fs) :
    isExists ((applyRun false ign base tree fs).fs) [] = true := by
  unfold applyRun
  have hex1 : isExists ((if isExists fs [] then (fs, ([] : List Mut))
      else doMut false fs (Mut.mkdirM [])).1) [] = true := by
    by_cases hex : isExists fs [] = true
    · simp [hex]
    · simp [hex, doMut, mutApply, isExists_eq, Fs.lookup_insertE]
  exact applyEntries_exists_mono false ign base [] tree _ hex1

theorem applyRun_post {p : Path} (ign : String → Bool) (base : String)
    (tree : Entries) (fs : Fs) (hmem : p ∈ Entries.reqPositions ign [] tree) :
    isExists ((applyRun false ign base tree fs).fs) p = true := by
  unfold applyRun
  exact applyEntries_post ign base [] tree _ hmem

/-- Claim C1: apply is idempotent.  Running apply a second time immediately
after an apply invokes no mutation primitive at all (no symlink, mkdir,
unlink or rmdir is recorded) and returns the target tree unchanged, for
every source tree, target tree, ignore configuration and base directory. -/
theorem apply_idempotent (ign : String → Bool) (base : String)
    (tree : Entries) (fs : Fs) :
    (applyRun false ign base tree ((applyRun false ign base tree fs).fs)).fs
        = (applyRun false ign base tree fs).fs ∧
    (applyRun false ign base tree ((applyRun false ign base tree fs).fs)).muts = [] := by
  have hroot := applyRun_root_exists ign base tree fs
  have hnoop := applyEntries_noop ign base [] tree ((applyRun false ign base tree fs).fs)
    (fun p hp => applyRun_post ign base tree fs hp)
  have hrun : applyRun false ign base tree ((applyRun false ign base tree fs).fs)
      = ⟨(applyRun false ign base tree fs).fs, [], []⟩ := by
    generalize hfs1 : (applyRun false ign base tree fs).fs = fs1 at hroot hnoop
    unfold applyRun
    simp [hroot, hnoop]
  rw [hrun]
  exact ⟨rfl, rfl⟩

end Udot

namespace Udot

/-- Claim C3: non-destructive overwrite policy.  Every target path that has
an entry before apply (a file with its content, a directory, or any
symbolic link) has exactly the same entry after apply: apply never replaces
or rewrites an existing entry. -/
theorem apply_nondestructive (ign : String → Bool) (base : String)
    (tree : Entries) (fs : Fs) (p : Path) (e : TEntry)
    (h : fs.lookup p = some e) :
    ((applyRun false ign base tree fs).fs).lookup p = some e := by
  unfold applyRun
  have h1 : ((if isExists fs [] then (fs, ([] : List Mut))
      else doMut false fs (Mut.mkdirM [])).1).lookup p = some e := by
    by_cases hex : isExists fs [] = true
    · simp [hex, h]
    · have hnone := lookup_none_of_not_exists (by simpa using hex)
      have hne : ([] : Path) ≠ p := fun hq => by rw [hq, h] at hnone; cases hnone
      simp [hex, doMut, mutApply, Fs.lookup_insertE, hne, h]
  exact applyEntries_preserve false ign base [] tree _ h1

/-- Claim C3 witness. -/
theorem apply_nondestructive_witness :
    ([(["f"], TEntry.file "user data")] : Fs).lookup ["f"]
        = some (TEntry.file "user data") ∧
    ((applyRun false (fun _ => false) "/b"
        (Entries.cons "f" Node.file Entries.nil)
        [(["f"], TEntry.file "user data")]).fs).lookup ["f"]
      = some (TEntry.file "user data") :=
  ⟨rfl, apply_nondestructive (fun _ => false) "/b"
    (Entries.cons "f" Node.file Entries.nil)
    [(["f"], TEntry.file "user data")] ["f"] (TEntry.file "user data") rfl⟩

end Udot

namespace Udot

theorem pruneDir_lookup_ne {p : Path} (dry : Bool) (rel : Path) (o : Out)
    (h : p ≠ rel) : ((pruneDir dry rel o).fs).lookup p = (o.fs).lookup p := by
  unfold pruneDir
  split
  · cases dry <;>
      simp [doMut, mutApply, Fs.lookup_erase, h]
  · rfl

theorem pruneDir_dec {p : Path} {e : TEntry} (dry : Bool) (rel : Path) (o : Out)
    (h : ((pruneDir dry rel o).fs).lookup p = some e) : (o.fs).lookup p = some e := by
  unfold pruneDir at h
  split at h
  · cases dry
    · simp [doMut, mutApply, Fs.lookup_erase] at h
      exact h.2
    · simpa [doMut] using h
  · exact h

theorem pruneDir_root (dry : Bool) (o : Out) : pruneDir dry [] o = o := by
  unfold pruneDir
  simp

mutual
theorem restoreEntry_dec {p : Path} {e : TEntry} :
    ∀ (dry : Bool) (base : String) (rel : Path) (name : String)
      (node : Node) (fs : Fs),
      ((restoreEntry dry base rel name node fs).fs).lookup p = some e →
      fs.lookup p = some e
  | dry, base, rel, name, Node.file, fs, h => by
      by_cases hg : isSymbolicLinkFrom fs (rel ++ [name]) base = true
      · unfold restoreEntry at h
        simp only [hg, if_true] at h
        cases dry
        · simp [doMut, mutApply, Fs.lookup_erase] at h
          exact h.2
        · simpa [doMut] using h
      · unfold restoreEntry at h
        simpa [hg] using h
  | dry, base, rel, name, Node.dir cs, fs, h => by
      unfold restoreEntry at h
      exact restoreEntries_dec dry base (rel ++ [name]) cs fs
        (pruneDir_dec dry (rel ++ [name]) _ h)

theorem restoreEntries_dec {p : Path} {e : TEntry} :
    ∀ (dry : Bool) (base : String) (rel : Path) (es : Entries) (fs : Fs),
      ((restoreEntries dry base rel es fs).fs).lookup p = some e →
      fs.lookup p = some e
  | dry, base, rel, Entries.nil, fs, h => by simpa [restoreEntries] using h
  | dry, base, rel, Entries.cons name node rest, fs, h => by
      have h0 : ((restoreEntries dry base rel rest
          ((restoreEntry dry base rel name node fs).fs)).fs).lookup p = some e := by
        simpa [restoreEntries] using h
      exact restoreEntry_dec dry base rel name node fs
        (restoreEntries_dec dry base rel rest _ h0)
end

theorem restoreEntries_none {p : Path}
    (dry : Bool) (base : String) (rel : Path) (es : Entries) (fs : Fs)
    (h : fs.lookup p = none) :
    ((restoreEntries dry base rel es fs).fs).lookup p = none := by
  cases hl : ((restoreEntries dry base rel es fs).fs).lookup p with
  | none => rfl
  | some e => rw [restoreEntries_dec dry base rel es fs hl] at h; cases h

mutual
theorem restoreEntry_frame {p : Path} :
    ∀ (dry : Bool) (base : String) (rel : Path) (name : String)
      (node : Node) (fs : Fs),
      p ∉ Node.filePositions (rel ++ [name]) node →
      p ∉ Node.dirPositions (rel ++ [name]) node →
      ((restoreEntry dry base rel name node fs).fs).lookup p = fs.lookup p
  | dry, base, rel, name, Node.file, fs, hf, _ => by
      have hne : p ≠ rel ++ [name] := fun hq => by
        apply hf; simp [Node.filePositions, hq]
      by_cases hg : isSymbolicLinkFrom fs (rel ++ [name]) base = true
      · unfold restoreEntry
        simp only [hg, if_true]
        cases dry <;> simp [doMut, mutApply, Fs.lookup_erase, hne]
      · unfold restoreEntry
        simp [hg]
  | dry, base, rel, name, Node.dir cs, fs, hf, hd => by
      simp only [Node.filePositions] at hf
      simp only [Node.dirPositions, List.mem_cons, not_or] at hd
      obtain ⟨hne, hd⟩ := hd
      unfold restoreEntry
      rw [pruneDir_lookup_ne dry (rel ++ [name]) _ hne]
      exact restoreEntries_frame dry base (rel ++ [name]) cs fs hf hd

theorem restoreEntries_frame {p : Path} :
    ∀ (dry : Bool) (base : String) (rel : Path) (es : Entries) (fs : Fs),
      p ∉ Entries.filePositions rel es →
      p ∉ Entries.dirPositions rel es →
      ((restoreEntries dry base rel es fs).fs).lookup p = fs.lookup p
  | dry, base, rel, Entries.nil, fs, _, _ => by simp [restoreEntries]
  | dry, base, rel, Entries.cons name node rest, fs, hf, hd => by
      simp only [Entries.filePositions, List.mem_append, not_or] at hf
      simp only [Entries.dirPositions, List.mem_append, not_or] at hd
      have h1 := restoreEntry_frame dry base rel name node fs hf.1 hd.1
      have h2 := restoreEntries_frame dry base rel rest
        ((restoreEntry dry base rel name node fs).fs) hf.2 hd.2
      simpa [restoreEntries] using h2.trans h1
end

theorem not_mem_node_positions_of_other_name {p rel : Path} {name m : String}
    {t : Path} (node : Node) (hp : p = rel ++ m :: t) (hne : m ≠ name) :
    p ∉ Node.filePositions (rel ++ [name]) node ∧
      p ∉ Node.dirPositions (rel ++ [name]) node := by
  constructor
  · intro h
    obtain ⟨s, hs⟩ := Path.lead_of_cons_ext (mem_filePositions_node (rel ++ [name]) node h)
    exact hne (Path.seg_unique (hp ▸ hs))
  · intro h
    obtain ⟨s, hs⟩ := Path.lead_of_cons_ext (mem_dirPositions_node (rel ++ [name]) node h)
    exact hne (Path.seg_unique (hp ▸ hs))

theorem not_mem_entries_positions_of_fresh_name {p rel : Path} {name : String}
    {s : Path} (es : Entries) (hp : p = rel ++ name :: s)
    (hnm : name ∉ es.names) :
    p ∉ Entries.filePositions rel es ∧ p ∉ Entries.dirPositions rel es := by
  constructor
  · intro h
    obtain ⟨m, t, hm, heq⟩ := mem_filePositions_entries rel es h
    exact hnm ((Path.seg_unique (hp ▸ heq) : name = m) ▸ hm)
  · intro h
    obtain ⟨m, t, hm, heq⟩ := mem_dirPositions_entries rel es h
    exact hnm ((Path.seg_unique (hp ▸ heq) : name = m) ▸ hm)

end Udot

namespace Udot

mutual
theorem restoreEntry_filepos {p : Path} :
    ∀ (base : String) (rel : Path) (name : String) (node : Node) (fs : Fs),
      Node.wf node = true →
      p ∈ Node.filePositions (rel ++ [name]) node →
      ((restoreEntry false base rel name node fs).fs).lookup p
        = if isSymbolicLinkFrom fs p base then none else fs.lookup p
  | base, rel, name, Node.file, fs, _, hmem => by
      simp only [Node.filePositions, List.mem_singleton] at hmem
      subst hmem
      by_cases hg : isSymbolicLinkFrom fs (rel ++ [name]) base = true
      · unfold restoreEntry
        simp [hg, doMut, mutApply, Fs.lookup_erase]
      · unfold restoreEntry
        simp [hg]
  | base, rel, name, Node.dir cs, fs, hwf, hmem => by
      simp only [Node.filePositions] at hmem
      have hne : p ≠ rel ++ [name] := by
        obtain ⟨n, s, _, heq⟩ := mem_filePositions_entries (rel ++ [name]) cs hmem
        intro hq
        rw [hq] at heq
        have hlen : (rel ++ [name]).length = ((rel ++ [name]) ++ n :: s).length := by
          rw [← heq]
        simp at hlen
      unfold restoreEntry
      rw [pruneDir_lookup_ne false (rel ++ [name]) _ hne]
      exact restoreEntries_filepos base (rel ++ [name]) cs fs
        (by simpa [Node.wf] using hwf) hmem

theorem restoreEntries_filepos {p : Path} :
    ∀ (base : String) (rel : Path) (es : Entries) (fs : Fs),
      Entries.wf es = true →
      p ∈ Entries.filePositions rel es →
      ((restoreEntries false base rel es fs).fs).lookup p
        = if isSymbolicLinkFrom fs p base then none else fs.lookup p
  | base, rel, Entries.nil, fs, _, hmem => by
      simp [Entries.filePositions] at hmem
  | base, rel, Entries.cons name node rest, fs, hwf, hmem => by
      simp only [Entries.wf, Bool.and_eq_true, Bool.not_eq_true'] at hwf
      obtain ⟨⟨hnm, hwn⟩, hwr⟩ := hwf
      have hnm' : name ∉ Entries.names rest := by
        simpa [List.elem_iff] using hnm
      simp only [Entries.filePositions, List.mem_append] at hmem
      have hout : (restoreEntries false base rel (Entries.cons name node rest) fs).fs
          = (restoreEntries false base rel rest
              ((restoreEntry false base rel name node fs).fs)).fs := by
        simp [restoreEntries]
      rcases hmem with hmem | hmem
      · have h1 := restoreEntry_filepos base rel name node fs hwn hmem
        obtain ⟨s, hp⟩ :=
          Path.lead_of_cons_ext (mem_filePositions_node (rel ++ [name]) node hmem)
        have hrest := not_mem_entries_positions_of_fresh_name rest hp hnm'
        rw [hout, restoreEntries_frame false base rel rest _ hrest.1 hrest.2, h1]
      · obtain ⟨m, t, hm, hp⟩ := mem_filePositions_entries rel rest hmem
        have hmne : m ≠ name := fun hq => hnm' (hq ▸ hm)
        have hhead := not_mem_node_positions_of_other_name node hp hmne
        have h1 := restoreEntry_frame false base rel name node fs hhead.1 hhead.2
        have h2 := restoreEntries_filepos base rel rest
          ((restoreEntry false base rel name node fs).fs) hwr hmem
        rw [hout, h2, isSymbolicLinkFrom_congr base h1, h1]
end

theorem replayMuts_append (fs : Fs) (ms1 ms2 : List Mut) :
    replayMuts fs (ms1 ++ ms2) = replayMuts (replayMuts fs ms1) ms2 := by
  induction ms1 generalizing fs with
  | nil => simp [replayMuts]
  | cons m ms ih => simp [replayMuts, ih]

theorem pruneSafeB_append (fs : Fs) (ms1 ms2 : List Mut) :
    pruneSafeB fs (ms1 ++ ms2)
      = (pruneSafeB fs ms1 && pruneSafeB (replayMuts fs ms1) ms2) := by
  induction ms1 generalizing fs with
  | nil => simp [pruneSafeB, replayMuts]
  | cons m ms ih =>
      simp only [List.cons_append, pruneSafeB, replayMuts, List.append_eq]
      rw [ih (mutApply fs m)]
      cases m <;> simp [Bool.and_assoc]

mutual
theorem restoreEntry_safe :
    ∀ (base : String) (rel : Path) (name : String) (node : Node) (fs : Fs),
      (restoreEntry false base rel name node fs).fs
          = replayMuts fs (restoreEntry false base rel name node fs).muts ∧
      pruneSafeB fs (restoreEntry false base rel name node fs).muts = true
  | base, rel, name, Node.file, fs => by
      by_cases hg : isSymbolicLinkFrom fs (rel ++ [name]) base = true
      · unfold restoreEntry
        simp [hg, doMut, replayMuts, pruneSafeB, mutApply]
      · unfold restoreEntry
        simp [hg, replayMuts, pruneSafeB]
  | base, rel, name, Node.dir cs, fs => by
      have ih := restoreEntries_safe base (rel ++ [name]) cs fs
      unfold restoreEntry pruneDir
      split
      · rename_i hguard
        constructor
        · simp only [doMut, if_false, Bool.false_eq_true]
          rw [replayMuts_append, ← ih.1]
          simp [replayMuts, mutApply]
        · simp only [doMut, if_false, Bool.false_eq_true]
          rw [pruneSafeB_append, ← ih.1]
          simp only [Bool.and_eq_true]
          refine ⟨ih.2, ?_⟩
          simp only [Bool.and_eq_true] at hguard
          simp [pruneSafeB, hguard.1.2, hguard.2, mutApply]
      · exact ih

theorem restoreEntries_safe :
    ∀ (base : String) (rel : Path) (es : Entries) (fs : Fs),
      (restoreEntries false base rel es fs).fs
          = replayMuts fs (restoreEntries false base rel es fs).muts ∧
      pruneSafeB fs (restoreEntries false base rel es fs).muts = true
  | base, rel, Entries.nil, fs => by simp [restoreEntries, replayMuts, pruneSafeB]
  | base, rel, Entries.cons name node rest, fs => by
      have ih1 := restoreEntry_safe base rel name node fs
      have ih2 := restoreEntries_safe base rel rest
        ((restoreEntry false base rel name node fs).fs)
      constructor
      · simp only [restoreEntries]
        rw [replayMuts_append, ← ih1.1, ← ih2.1]
      · simp only [restoreEntries]
        rw [pruneSafeB_append, ← ih1.1]
        simp [ih1.2, ih2.2]
end

/-- Claim C4: conservative pruning.  Replaying the mutation trace of a
tree-mode restore from the starting target tree, every rmdir in the trace
removes a directory that is empty at that moment (its target contains no
entry once its children are processed) and is never the target root; this
holds for every source tree, target tree and base directory. -/
theorem restore_prune_conservative (base : String) (tree : Entries) (fs : Fs) :
    pruneSafeB fs (restoreTreeRun false base tree fs).muts = true := by
  unfold restoreTreeRun restoreDir
  rw [pruneDir_root]
  exact (restoreEntries_safe base [] tree fs).2

end Udot

namespace Udot

theorem Path.self_ne_ext (r : Path) (n : String) (s : Path) : r ≠ r ++ n :: s := by
  intro h
  have hlen : r.length = (r ++ n :: s).length := by rw [← h]
  simp at hlen

theorem Path.lead_trans_cons {r : Path} {n : String} {q : Path}
    (h : Path.lead (r ++ [n]) q = true) : Path.lead r q = true := by
  obtain ⟨s, rfl⟩ := (Path.lead_iff _ _).1 h
  exact (Path.lead_iff _ _).2 ⟨[n] ++ s, by simp⟩

theorem Path.lead_child (r : Path) (m : String) :
    Path.lead r (r ++ [m]) = true :=
  (Path.lead_iff _ _).2 ⟨[m], rfl⟩

theorem managed_of_joinPath {fs : Fs} {q : Path} {base : String}
    (h : fs.lookup q = some (TEntry.symlink (joinPath base q))) :
    isSymbolicLinkFrom fs q base = true := by
  rw [isSymbolicLinkFrom_eq, h]
  exact joinPath_startsWith base q

theorem applyEntry_exists_mono {p : Path}
    (dry : Bool) (ign : String → Bool) (base : String) (rel : Path)
    (name : String) (node : Node) (fs : Fs) (h : isExists fs p = true) :
    isExists ((applyEntry dry ign base rel name node fs).fs) p = true := by
  rw [isExists_eq] at h
  cases hl : fs.lookup p with
  | none => rw [hl] at h; cases h
  | some e => exact exists_of_lookup_some (applyEntry_preserve dry ign base rel name node fs hl)

mutual
theorem applyEntry_char {p : Path} :
    ∀ (ign : String → Bool) (base : String) (rel : Path) (name : String)
      (node : Node) (fs : Fs),
      fs.lookup p = none →
      ((applyEntry false ign base rel name node fs).fs).lookup p = none ∨
      (p ∈ Node.filePositions (rel ++ [name]) node ∧
        ((applyEntry false ign base rel name node fs).fs).lookup p
          = some (TEntry.symlink (joinPath base p))) ∨
      (p ∈ Node.dirPositions (rel ++ [name]) node ∧
        ((applyEntry false ign base rel name node fs).fs).lookup p = some TEntry.dir)
  | ign, base, rel, name, Node.file, fs, h => by
      by_cases hig : ign name = true
      · left; unfold applyEntry; simpa [hig] using h
      · by_cases hex : isExists fs (rel ++ [name]) = true
        · left; unfold applyEntry; simpa [hig, hex] using h
        · by_cases hp : rel ++ [name] = p
          · right; left
            subst hp
            constructor
            · simp [Node.filePositions]
            · unfold applyEntry
              simp [hig, hex, doMut, mutApply, Fs.lookup_insertE]
          · left
            unfold applyEntry
            simpa [hig, hex, doMut, mutApply, Fs.lookup_insertE, hp] using h
  | ign, base, rel, name, Node.dir cs, fs, h => by
      by_cases hig : ign name = true
      · left; unfold applyEntry; simpa [hig] using h
      · have hstep : (applyEntry false ign base rel name (Node.dir cs) fs).fs
            = (applyEntries false ign base (rel ++ [name]) cs
                ((if isExists fs (rel ++ [name]) then (fs, ([] : List Mut))
                  else doMut false fs (Mut.mkdirM (rel ++ [name]))).1)).fs := by
          unfold applyEntry
          simp [hig]
        by_cases hp : rel ++ [name] = p
        · subst hp
          by_cases hex : isExists fs (rel ++ [name]) = true
          · exact absurd (lookup_none_of_not_exists (by
              rw [isExists_eq, h]; rfl)) (by rw [h]; exact fun _ => (by
                rw [isExists_eq, h] at hex; cases hex))
          · right; right
            refine ⟨by simp [Node.dirPositions], ?_⟩
            rw [hstep]
            refine applyEntries_preserve false ign base (rel ++ [name]) cs _ ?_
            simp [hex, doMut, mutApply, Fs.lookup_insertE]
        · have h1 : ((if isExists fs (rel ++ [name]) then (fs, ([] : List Mut))
              else doMut false fs (Mut.mkdirM (rel ++ [name]))).1).lookup p = none := by
            by_cases hex : isExists fs (rel ++ [name]) = true
            · simpa [hex] using h
            · simpa [hex, doMut, mutApply, Fs.lookup_insertE, hp] using h
          have := applyEntries_char ign base (rel ++ [name]) cs _ h1
          rw [hstep]
          rcases this with hc | ⟨hm, hc⟩ | ⟨hm, hc⟩
          · exact Or.inl hc
          · exact Or.inr (Or.inl ⟨by simpa [Node.filePositions] using hm, hc⟩)
          · exact Or.inr (Or.inr ⟨by simp [Node.dirPositions, hm], hc⟩)

theorem applyEntries_char {p : Path} :
    ∀ (ign : String → Bool) (base : String) (rel : Path)
      (es : Entries) (fs : Fs),
      fs.lookup p = none →
      ((applyEntries false ign base rel es fs).fs).lookup p = none ∨
      (p ∈ Entries.filePositions rel es ∧
        ((applyEntries false ign base rel es fs).fs).lookup p
          = some (TEntry.symlink (joinPath base p))) ∨
      (p ∈ Entries.dirPositions rel es ∧
        ((applyEntries false ign base rel es fs).fs).lookup p = some TEntry.dir)
  | ign, base, rel, Entries.nil, fs, h => by
      left; simpa [applyEntries] using h
  | ign, base, rel, Entries.cons name node rest, fs, h => by
      have hout : (applyEntries false ign base rel (Entries.cons name node rest) fs).fs
          = (applyEntries false ign base rel rest
              ((applyEntry false ign base rel name node fs).fs)).fs := by
        simp [applyEntries]
      rw [hout]
      rcases applyEntry_char ign base rel name node fs h with hc | ⟨hm, hc⟩ | ⟨hm, hc⟩
      · rcases applyEntries_char ign base rel rest _ hc with hc2 | ⟨hm2, hc2⟩ | ⟨hm2, hc2⟩
        · exact Or.inl hc2
        · exact Or.inr (Or.inl ⟨by simp [Entries.filePositions, hm2], hc2⟩)
        · exact Or.inr (Or.inr ⟨by simp [Entries.dirPositions, hm2], hc2⟩)
      · exact Or.inr (Or.inl ⟨by simp [Entries.filePositions, hm],
          applyEntries_preserve false ign base rel rest _ hc⟩)
      · exact Or.inr (Or.inr ⟨by simp [Entries.dirPositions, hm],
          applyEntries_preserve false ign base rel rest _ hc⟩)
end

mutual
theorem applyEntry_closed :
    ∀ (ign : String → Bool) (base : String) (rel : Path) (name : String)
      (node : Node) (fs : Fs),
      Fs.parentClosed fs = true →
      (isExists fs rel = true ∨ ign name = true) →
      Fs.parentClosed ((applyEntry false ign base rel name node fs).fs) = true
  | ign, base, rel, name, Node.file, fs, hcl, hex => by
      by_cases hig : ign name = true
      · unfold applyEntry; simpa [hig] using hcl
      · have hrel : isExists fs rel = true := by
          rcases hex with hex | hex
          · exact hex
          · exact absurd hex (by simp [hig])
        by_cases hext : isExists fs (rel ++ [name]) = true
        · unfold applyEntry; simpa [hig, hext] using hcl
        · unfold applyEntry
          simp only [hig, Bool.false_eq_true, if_false, hext, doMut, mutApply]
          refine Fs.parentClosed_insertE _ hcl (Or.inr ?_)
          simpa [List.dropLast_concat] using hrel
  | ign, base, rel, name, Node.dir cs, fs, hcl, hex => by
      by_cases hig : ign name = true
      · unfold applyEntry; simpa [hig] using hcl
      · have hrel : isExists fs rel = true := by
          rcases hex with hex | hex
          · exact hex
          · exact absurd hex (by simp [hig])
        have hstep : (applyEntry false ign base rel name (Node.dir cs) fs).fs
            = (applyEntries false ign base (rel ++ [name]) cs
                ((if isExists fs (rel ++ [name]) then (fs, ([] : List Mut))
                  else doMut false fs (Mut.mkdirM (rel ++ [name]))).1)).fs := by
          unfold applyEntry
          simp [hig]
        rw [hstep]
        by_cases hext : isExists fs (rel ++ [name]) = true
        · refine applyEntries_closed ign base (rel ++ [name]) cs _ (by simpa [hext] using hcl)
            (Or.inl (by simp [hext]))
        · have hcl1 : Fs.parentClosed (fs.insertE (rel ++ [name]) TEntry.dir) = true := by
            refine Fs.parentClosed_insertE _ hcl (Or.inr ?_)
            simpa [List.dropLast_concat] using hrel
          have hex1 : isExists (fs.insertE (rel ++ [name]) TEntry.dir) (rel ++ [name]) = true := by
            simp [isExists_eq, Fs.lookup_insertE]
          refine applyEntries_closed ign base (rel ++ [name]) cs _ ?_ (Or.inl ?_)
          · simpa [hext, doMut, mutApply] using hcl1
          · simpa [hext, doMut, mutApply] using hex1

theorem applyEntries_closed :
    ∀ (ign : String → Bool) (base : String) (rel : Path)
      (es : Entries) (fs : Fs),
      Fs.parentClosed fs = true →
      (isExists fs rel = true ∨ ∀ n, ign n = true) →
      Fs.parentClosed ((applyEntries false ign base rel es fs).fs) = true
  | ign, base, rel, Entries.nil, fs, hcl, _ => by simpa [applyEntries] using hcl
  | ign, base, rel, Entries.cons name node rest, fs, hcl, hex => by
      have hout : (applyEntries false ign base rel (Entries.cons name node rest) fs).fs
          = (applyEntries false ign base rel rest
              ((applyEntry false ign base rel name node fs).fs)).fs := by
        simp [applyEntries]
      rw [hout]
      have h1 := applyEntry_closed ign base rel name node fs hcl
        (hex.imp_right (fun h => h name))
      refine applyEntries_closed ign base rel rest _ h1 ?_
      rcases hex with hex | hex
      · exact Or.inl (applyEntry_exists_mono false ign base rel name node fs hex)
      · exact Or.inr hex
end

end Udot

namespace Udot

theorem pruneDir_none (dry : Bool) (rel : Path) (o : Out)
    (hself : (o.fs).lookup rel = none) :
    ((pruneDir dry rel o).fs).lookup rel = none := by
  unfold pruneDir
  have hex : isExists o.fs rel = false := by simp [isExists_eq, hself]
  simp [hex, hself]

theorem pruneDir_some_cases (rel : Path) (o : Out) (e : TEntry)
    (hself : (o.fs).lookup rel = some e) (hne : rel ≠ []) :
    ((pruneDir false rel o).fs).lookup rel = some e ∨
    (((pruneDir false rel o).fs).lookup rel = none ∧
      ∀ q, Path.isChildOf q rel = true → ((pruneDir false rel o).fs).lookup q = none) := by
  have hex : isExists o.fs rel = true := exists_of_lookup_some hself
  by_cases hempty : Fs.dirEmpty o.fs rel = true
  · right
    have hguard : (isExists o.fs rel && Fs.dirEmpty o.fs rel && decide (rel ≠ [])) = true := by
      simp [hex, hempty, hne]
    unfold pruneDir
    rw [if_pos hguard]
    constructor
    · simp [doMut, mutApply, Fs.lookup_erase]
    · intro q hq
      have hqnone := (Fs.dirEmpty_iff o.fs rel).1 hempty q hq
      simp [doMut, mutApply, Fs.lookup_erase, hqnone]
  · left
    have hguard : (isExists o.fs rel && Fs.dirEmpty o.fs rel && decide (rel ≠ [])) = false := by
      simp [hempty]
    unfold pruneDir
    rw [if_neg (by rw [hguard]; simp)]
    exact hself

theorem pruneDir_clear (rel : Path) (o : Out)
    (hex : isExists o.fs rel = true)
    (hch : ∀ q, Path.isChildOf q rel = true → (o.fs).lookup q = none)
    (hne : rel ≠ []) :
    ((pruneDir false rel o).fs).lookup rel = none ∧
      ∀ q, Path.isChildOf q rel = true → ((pruneDir false rel o).fs).lookup q = none := by
  have hempty : Fs.dirEmpty o.fs rel = true := (Fs.dirEmpty_iff o.fs rel).2 hch
  have hguard : (isExists o.fs rel && Fs.dirEmpty o.fs rel && decide (rel ≠ [])) = true := by
    simp [hex, hempty, hne]
  unfold pruneDir
  rw [if_pos hguard]
  constructor
  · simp [doMut, mutApply, Fs.lookup_erase]
  · intro q hq
    simp [doMut, mutApply, Fs.lookup_erase, hch q hq]

end Udot

namespace Udot

theorem master_dirpos :
    ∀ (es : Entries) (ign : String → Bool) (base : String) (rel : Path)
      (fs0 fsMid : Fs) (p : Path),
      Entries.wf es = true →
      Fs.parentClosed fs0 = true →
      (isExists fs0 rel = true ∨ ∀ n, ign n = true) →
      (∀ q, (∃ n, n ∈ Entries.names es ∧ Path.lead (rel ++ [n]) q = true) →
        fsMid.lookup q = ((applyEntries false ign base rel es fs0).fs).lookup q) →
      p ∈ Entries.dirPositions rel es →
      ((fs0.lookup p = none →
          ((restoreEntries false base rel es fsMid).fs).lookup p = none) ∧
        (∀ e, fs0.lookup p = some e →
          ((restoreEntries false base rel es fsMid).fs).lookup p = some e ∨
          (((restoreEntries false base rel es fsMid).fs).lookup p = none ∧
            ∀ q, Path.isChildOf q p = true →
              ((restoreEntries false base rel es fsMid).fs).lookup q = none)))
  | Entries.nil, ign, base, rel, fs0, fsMid, p, _, _, _, _, hmem => by
      simp [Entries.dirPositions] at hmem
  | Entries.cons name node rest, ign, base, rel, fs0, fsMid, p, hwf, hcl, hex, hA, hmem => by
      simp only [Entries.wf, Bool.and_eq_true, Bool.not_eq_true'] at hwf
      obtain ⟨⟨hnm, hwn⟩, hwr⟩ := hwf
      have hnm' : name ∉ Entries.names rest := by simpa [List.elem_iff] using hnm
      have hRout : (restoreEntries false base rel (Entries.cons name node rest) fsMid).fs
          = (restoreEntries false base rel rest
              ((restoreEntry false base rel name node fsMid).fs)).fs := by
        simp [restoreEntries]
      have hAout : (applyEntries false ign base rel (Entries.cons name node rest) fs0).fs
          = (applyEntries false ign base rel rest
              ((applyEntry false ign base rel name node fs0).fs)).fs := by
        simp [applyEntries]
      have hT : ∀ q, Path.lead (rel ++ [name]) q = true →
          fsMid.lookup q = ((applyEntry false ign base rel name node fs0).fs).lookup q := by
        intro q hq
        obtain ⟨s, hqs⟩ := Path.lead_of_cons_ext hq
        have h1 := hA q ⟨name, by simp [Entries.names], hq⟩
        have hfr := not_mem_entries_positions_of_fresh_name rest hqs hnm'
        rw [h1, hAout,
          applyEntries_frame false ign base rel rest _ hfr.1 hfr.2]
      simp only [Entries.dirPositions, List.mem_append] at hmem
      rw [hRout]
      rcases hmem with hmemN | hmemR
      · -- the position lies inside the head entry, which must be a directory
        cases node with
        | file => simp [Node.dirPositions] at hmemN
        | dir cs =>
          have hwn' : Entries.wf cs = true := by simpa [Node.wf] using hwn
          have hRE : (restoreEntry false base rel name (Node.dir cs) fsMid)
              = pruneDir false (rel ++ [name])
                  (restoreEntries false base (rel ++ [name]) cs fsMid) := by
            unfold restoreEntry
            rfl
          have hRcsSelf : ((restoreEntries false base (rel ++ [name]) cs fsMid).fs).lookup
                (rel ++ [name])
              = fsMid.lookup (rel ++ [name]) :=
            restoreEntries_frame false base (rel ++ [name]) cs fsMid
              (self_not_mem_filePositions_entries _ cs)
              (self_not_mem_dirPositions_entries _ cs)
          have hrelne : rel ++ [name] ≠ [] := by simp
          -- branch-dependent facts, uniform conclusions
          have hU : (∀ p', p' ∈ Entries.dirPositions (rel ++ [name]) cs →
                ((fs0.lookup p' = none →
                    ((restoreEntries false base (rel ++ [name]) cs fsMid).fs).lookup p' = none) ∧
                  (∀ e, fs0.lookup p' = some e →
                    ((restoreEntries false base (rel ++ [name]) cs fsMid).fs).lookup p' = some e ∨
                    (((restoreEntries false base (rel ++ [name]) cs fsMid).fs).lookup p' = none ∧
                      ∀ q, Path.isChildOf q p' = true →
                        ((restoreEntries false base (rel ++ [name]) cs fsMid).fs).lookup q = none)))) ∧
              (fs0.lookup (rel ++ [name]) = none →
                ((restoreEntry false base rel name (Node.dir cs) fsMid).fs).lookup
                  (rel ++ [name]) = none) ∧
              (∀ e, fs0.lookup (rel ++ [name]) = some e →
                fsMid.lookup (rel ++ [name]) = some e) := by
            by_cases hig : ign name = true
            · -- ignored entry: apply leaves the whole subtree untouched
              have hAhead : (applyEntry false ign base rel name (Node.dir cs) fs0).fs = fs0 := by
                unfold applyEntry; simp [hig]
              have hA_cs : ∀ q, (∃ n, n ∈ Entries.names cs ∧
                    Path.lead ((rel ++ [name]) ++ [n]) q = true) →
                  fsMid.lookup q
                    = ((applyEntries false (fun _ => true) base (rel ++ [name]) cs fs0).fs).lookup q := by
                intro q ⟨n, _, hl⟩
                rw [applyEntries_allIgn]
                rw [hT q (Path.lead_trans_cons hl), hAhead]
              have hIH := fun (q : Path) (hq : q ∈ Entries.dirPositions (rel ++ [name]) cs) =>
                master_dirpos cs (fun _ => true) base (rel ++ [name]) fs0 fsMid q
                  hwn' hcl (Or.inr (fun _ => rfl)) hA_cs hq
              refine ⟨hIH, ?_, ?_⟩
              · intro h0
                have hmid : fsMid.lookup (rel ++ [name]) = none := by
                  rw [hT _ (Path.lead_refl _), hAhead]; exact h0
                rw [hRE]
                exact pruneDir_none false _ _ (hRcsSelf.trans hmid)
              · intro e he
                rw [hT _ (Path.lead_refl _), hAhead]; exact he
            · have hexrel : isExists fs0 rel = true := by
                rcases hex with hex | hex
                · exact hex
                · exact absurd (hex name) (by simpa using hig)
              by_cases hex0 : isExists fs0 (rel ++ [name]) = true
              · -- the mirrored directory already existed before apply
                have hAhead : (applyEntry false ign base rel name (Node.dir cs) fs0).fs
                    = (applyEntries false ign base (rel ++ [name]) cs fs0).fs := by
                  unfold applyEntry; simp [hig, hex0]
                have hA_cs : ∀ q, (∃ n, n ∈ Entries.names cs ∧
                      Path.lead ((rel ++ [name]) ++ [n]) q = true) →
                    fsMid.lookup q
                      = ((applyEntries false ign base (rel ++ [name]) cs fs0).fs).lookup q := by
                  intro q ⟨n, _, hl⟩
                  rw [hT q (Path.lead_trans_cons hl), hAhead]
                have hIH := fun (q : Path) (hq : q ∈ Entries.dirPositions (rel ++ [name]) cs) =>
                  master_dirpos cs ign base (rel ++ [name]) fs0 fsMid q
                    hwn' hcl (Or.inl hex0) hA_cs hq
                refine ⟨hIH, ?_, ?_⟩
                · intro h0
                  rw [isExists_eq, h0] at hex0
                  cases hex0
                · intro e he
                  rw [hT _ (Path.lead_refl _), hAhead,
                    applyEntries_frame false ign base (rel ++ [name]) cs fs0
                      (self_not_mem_filePositions_entries _ cs)
                      (self_not_mem_dirPositions_entries _ cs)]
                  exact he
              · -- apply creates the mirrored directory; restore prunes it back
                have hnone0 : fs0.lookup (rel ++ [name]) = none :=
                  lookup_none_of_not_exists (by simpa using hex0)
                have hAhead : (applyEntry false ign base rel name (Node.dir cs) fs0).fs
                    = (applyEntries false ign base (rel ++ [name]) cs
                        (fs0.insertE (rel ++ [name]) TEntry.dir)).fs := by
                  unfold applyEntry; simp [hig, hex0, doMut, mutApply]
                have hcl1 : Fs.parentClosed (fs0.insertE (rel ++ [name]) TEntry.dir) = true := by
                  refine Fs.parentClosed_insertE _ hcl (Or.inr ?_)
                  simpa [List.dropLast_concat] using hexrel
                have hex1 : isExists (fs0.insertE (rel ++ [name]) TEntry.dir)
                    (rel ++ [name]) = true := by
                  simp [isExists_eq, Fs.lookup_insertE]
                have hA_cs : ∀ q, (∃ n, n ∈ Entries.names cs ∧
                      Path.lead ((rel ++ [name]) ++ [n]) q = true) →
                    fsMid.lookup q
                      = ((applyEntries false ign base (rel ++ [name]) cs
                          (fs0.insertE (rel ++ [name]) TEntry.dir)).fs).lookup q := by
                  intro q ⟨n, _, hl⟩
                  rw [hT q (Path.lead_trans_cons hl), hAhead]
                have hIH := fun (q : Path) (hq : q ∈ Entries.dirPositions (rel ++ [name]) cs) =>
                  master_dirpos cs ign base (rel ++ [name])
                    (fs0.insertE (rel ++ [name]) TEntry.dir) fsMid q
                    hwn' hcl1 (Or.inl hex1) hA_cs hq
                have hU1 : ∀ p', p' ∈ Entries.dirPositions (rel ++ [name]) cs →
                    ((fs0.lookup p' = none →
                        ((restoreEntries false base (rel ++ [name]) cs fsMid).fs).lookup p' = none) ∧
                      (∀ e, fs0.lookup p' = some e →
                        ((restoreEntries false base (rel ++ [name]) cs fsMid).fs).lookup p' = some e ∨
                        (((restoreEntries false base (rel ++ [name]) cs fsMid).fs).lookup p' = none ∧
                          ∀ q, Path.isChildOf q p' = true →
                            ((restoreEntries false base (rel ++ [name]) cs fsMid).fs).lookup q = none))) := by
                  intro p' hp'
                  obtain ⟨m, t, _, hp⟩ := mem_dirPositions_entries (rel ++ [name]) cs hp'
                  have hpne : ¬(rel ++ [name] = p') := by
                    rw [hp]; exact Path.self_ne_ext _ m t
                  have htr : (fs0.insertE (rel ++ [name]) TEntry.dir).lookup p'
                      = fs0.lookup p' := by
                    rw [Fs.lookup_insertE, if_neg hpne]
                  have := hIH p' hp'
                  rw [htr] at this
                  exact this
                refine ⟨hU1, ?_, ?_⟩
                · intro h0
                  -- every direct child of the created directory is cleared
                  have hch : ∀ q, Path.isChildOf q (rel ++ [name]) = true →
                      ((restoreEntries false base (rel ++ [name]) cs fsMid).fs).lookup q = none := by
                    intro q hq
                    obtain ⟨m, hqm⟩ := (Path.isChildOf_iff q (rel ++ [name])).1 hq
                    have hq0 : fs0.lookup q = none := Fs.closed_child_none hcl hnone0 hq
                    have hqne : ¬(rel ++ [name] = q) := by
                      rw [hqm]; exact Path.self_ne_ext _ m []
                    have hq1 : (fs0.insertE (rel ++ [name]) TEntry.dir).lookup q = none := by
                      rw [Fs.lookup_insertE, if_neg hqne]; exact hq0
                    have hmidq : fsMid.lookup q
                        = ((applyEntries false ign base (rel ++ [name]) cs
                            (fs0.insertE (rel ++ [name]) TEntry.dir)).fs).lookup q := by
                      rw [hT q (by rw [hqm]; exact Path.lead_child _ m), hAhead]
                    rcases applyEntries_char ign base (rel ++ [name]) cs _ hq1 with
                      hc | ⟨hmm, hc⟩ | ⟨hmm, hc⟩
                    · exact restoreEntries_none false base (rel ++ [name]) cs fsMid
                        (hmidq.trans hc)
                    · have hmgd : isSymbolicLinkFrom fsMid q base = true :=
                        managed_of_joinPath (by rw [hmidq]; exact hc)
                      rw [restoreEntries_filepos base (rel ++ [name]) cs fsMid hwn' hmm]
                      simp [hmgd]
                    · exact (hIH q hmm).1 hq1
                  have hself1 : ((restoreEntries false base (rel ++ [name]) cs fsMid).fs).lookup
                      (rel ++ [name]) = some TEntry.dir := by
                    rw [hRcsSelf, hT _ (Path.lead_refl _), hAhead,
                      applyEntries_frame false ign base (rel ++ [name]) cs _
                        (self_not_mem_filePositions_entries _ cs)
                        (self_not_mem_dirPositions_entries _ cs),
                      Fs.lookup_insertE, if_pos rfl]
                  rw [hRE]
                  exact (pruneDir_clear (rel ++ [name]) _
                    (exists_of_lookup_some hself1) hch hrelne).1
                · intro e he
                  rw [he] at hnone0; cases hnone0
          obtain ⟨hU1, hU2, hU3⟩ := hU
          -- assemble the goal for the head entry
          simp only [Node.dirPositions, List.mem_cons] at hmemN
          rcases hmemN with rfl | hdeep
          · -- the position is the head directory itself
            constructor
            · intro h0
              exact restoreEntries_none false base rel rest _ (hU2 h0)
            · intro e he
              have hRcs : ((restoreEntries false base (rel ++ [name]) cs fsMid).fs).lookup
                  (rel ++ [name]) = some e := hRcsSelf.trans (hU3 e he)
              have hp' : rel ++ [name] = rel ++ name :: ([] : Path) := by simp
              have hfr := not_mem_entries_positions_of_fresh_name rest hp' hnm'
              rcases pruneDir_some_cases (rel ++ [name])
                  (restoreEntries false base (rel ++ [name]) cs fsMid) e hRcs hrelne with
                hsome | ⟨hnone, hch⟩
              · left
                rw [restoreEntries_frame false base rel rest _ hfr.1 hfr.2, hRE]
                exact hsome
              · right
                constructor
                · refine restoreEntries_none false base rel rest _ ?_
                  rw [hRE]; exact hnone
                · intro q hq
                  refine restoreEntries_none false base rel rest _ ?_
                  rw [hRE]; exact hch q hq
          · -- the position lies strictly inside the head subtree
            obtain ⟨m, t, _, hp⟩ := mem_dirPositions_entries (rel ++ [name]) cs hdeep
            have hpne : p ≠ rel ++ [name] := by
              rw [hp]; intro hcon; exact Path.self_ne_ext _ m t hcon.symm
            have hheadp : ((restoreEntry false base rel name (Node.dir cs) fsMid).fs).lookup p
                = ((restoreEntries false base (rel ++ [name]) cs fsMid).fs).lookup p := by
              rw [hRE]; exact pruneDir_lookup_ne false _ _ hpne
            have hpfresh : p = rel ++ name :: (m :: t) := by rw [hp]; simp
            have hfr := not_mem_entries_positions_of_fresh_name rest hpfresh hnm'
            have hIHp := hU1 p hdeep
            constructor
            · intro h0
              exact restoreEntries_none false base rel rest _ (hheadp.trans (hIHp.1 h0))
            · intro e he
              rcases hIHp.2 e he with hsome | ⟨hnone, hch⟩
              · left
                rw [restoreEntries_frame false base rel rest _ hfr.1 hfr.2, hheadp]
                exact hsome
              · right
                constructor
                · exact restoreEntries_none false base rel rest _ (hheadp.trans hnone)
                · intro q hq
                  obtain ⟨x, hxq⟩ := (Path.isChildOf_iff q p).1 hq
                  have hq' : q = (rel ++ [name]) ++ m :: (t ++ [x]) := by
                    rw [hxq, hp]; simp
                  have hqne : q ≠ rel ++ [name] := by
                    rw [hq']; intro hcon
                    exact Path.self_ne_ext _ m (t ++ [x]) hcon.symm
                  have hqhead : ((restoreEntry false base rel name (Node.dir cs) fsMid).fs).lookup q
                      = ((restoreEntries false base (rel ++ [name]) cs fsMid).fs).lookup q := by
                    rw [hRE]; exact pruneDir_lookup_ne false _ _ hqne
                  exact restoreEntries_none false base rel rest _
                    (hqhead.trans (hch q hq))
      · -- the position lies inside the rest of the entries
        obtain ⟨m, t, hm, hp⟩ := mem_dirPositions_entries rel rest hmemR
        have hmne : m ≠ name := fun hq => hnm' (hq ▸ hm)
        have hheadpos := not_mem_node_positions_of_other_name node hp hmne
        have hA_p : ((applyEntry false ign base rel name node fs0).fs).lookup p
            = fs0.lookup p :=
          applyEntry_frame false ign base rel name node fs0 hheadpos.1 hheadpos.2
        have hclA : Fs.parentClosed ((applyEntry false ign base rel name node fs0).fs) = true :=
          applyEntry_closed ign base rel name node fs0 hcl (hex.imp_right (fun h => h name))
        have hexA : isExists ((applyEntry false ign base rel name node fs0).fs) rel = true ∨
            ∀ n, ign n = true := by
          rcases hex with hex | hex
          · exact Or.inl (applyEntry_exists_mono false ign base rel name node fs0 hex)
          · exact Or.inr hex
        have hA_rest : ∀ q, (∃ n, n ∈ Entries.names rest ∧ Path.lead (rel ++ [n]) q = true) →
            ((restoreEntry false base rel name node fsMid).fs).lookup q
              = ((applyEntries false ign base rel rest
                  ((applyEntry false ign base rel name node fs0).fs)).fs).lookup q := by
          intro q ⟨n, hn, hq⟩
          obtain ⟨s, hqs⟩ := Path.lead_of_cons_ext hq
          have hne : n ≠ name := fun h => hnm' (h ▸ hn)
          have hqpos := not_mem_node_positions_of_other_name node hqs hne
          have h1 : ((restoreEntry false base rel name node fsMid).fs).lookup q
              = fsMid.lookup q :=
            restoreEntry_frame false base rel name node fsMid hqpos.1 hqpos.2
          have h2 := hA q ⟨n, by simp [Entries.names, hn], hq⟩
          rw [h1, h2, hAout]
        have hIH := master_dirpos rest ign base rel
          ((applyEntry false ign base rel name node fs0).fs)
          ((restoreEntry false base rel name node fsMid).fs) p
          hwr hclA hexA hA_rest hmemR
        exact ⟨fun h0 => hIH.1 (by rw [hA_p]; exact h0),
          fun e he => hIH.2 e (by rw [hA_p]; exact he)⟩

end Udot

namespace Udot

theorem applyRun_fs_eq (ign : String → Bool) (base : String) (tree : Entries) (fs : Fs) :
    (applyRun false ign base tree fs).fs
      = (applyEntries false ign base [] tree
          ((if isExists fs [] then (fs, ([] : List Mut))
            else doMut false fs (Mut.mkdirM [])).1)).fs := by
  unfold applyRun
  rfl

theorem restoreTreeRun_fs_eq (base : String) (tree : Entries) (fs : Fs) :
    (restoreTreeRun false base tree fs).fs
      = (restoreEntries false base [] tree fs).fs := by
  unfold restoreTreeRun restoreDir
  rw [pruneDir_root]

/-- Claim C2 (amended): apply followed by tree-mode restore, over an
untouched target with the same base and home directories.  At every
mirrored file position the final entry is the original one unless the
original was absent or was a symlink whose raw value starts with baseDir
(then it is gone); every mirrored directory position absent before apply is
absent afterwards; a pre-existing entry at a mirrored directory position
either survives unchanged or is pruned together with all its children;
paths outside the mirrored positions and the target root are preserved
(the root may have been created by apply). -/
theorem apply_restore_roundtrip
    (ign : String → Bool) (base : String) (tree : Entries) (fs : Fs)
    (hwf : Entries.wf tree = true) (hcl : Fs.parentClosed fs = true) :
    ∀ p : Path,
      (p ∈ Entries.filePositions [] tree →
        ((restoreTreeRun false base tree ((applyRun false ign base tree fs).fs)).fs).lookup p
          = if isSymbolicLinkFrom fs p base then none else fs.lookup p) ∧
      (p ∈ Entries.dirPositions [] tree →
        (fs.lookup p = none →
          ((restoreTreeRun false base tree ((applyRun false ign base tree fs).fs)).fs).lookup p
            = none) ∧
        (∀ e, fs.lookup p = some e →
          ((restoreTreeRun false base tree ((applyRun false ign base tree fs).fs)).fs).lookup p
              = some e ∨
          (((restoreTreeRun false base tree ((applyRun false ign base tree fs).fs)).fs).lookup p
              = none ∧
            ∀ q, Path.isChildOf q p = true →
              ((restoreTreeRun false base tree
                  ((applyRun false ign base tree fs).fs)).fs).lookup q = none))) ∧
      (p ∉ Entries.filePositions [] tree → p ∉ Entries.dirPositions [] tree → p ≠ [] →
        ((restoreTreeRun false base tree ((applyRun false ign base tree fs).fs)).fs).lookup p
          = fs.lookup p) ∧
      (p = [] →
        ((restoreTreeRun false base tree ((applyRun false ign base tree fs).fs)).fs).lookup p
            = fs.lookup p ∨
        (fs.lookup p = none ∧
          ((restoreTreeRun false base tree
              ((applyRun false ign base tree fs).fs)).fs).lookup p = some TEntry.dir)) := by
  intro p
  have hfs2eq : (restoreTreeRun false base tree ((applyRun false ign base tree fs).fs)).fs
      = (restoreEntries false base [] tree
          ((applyEntries false ign base [] tree
            ((if isExists fs [] then (fs, ([] : List Mut))
              else doMut false fs (Mut.mkdirM [])).1)).fs)).fs := by
    rw [restoreTreeRun_fs_eq, applyRun_fs_eq]
  rw [hfs2eq]
  -- facts about the root-ensured starting tree
  have hPcl : Fs.parentClosed ((if isExists fs [] then (fs, ([] : List Mut))
      else doMut false fs (Mut.mkdirM [])).1) = true := by
    by_cases hex : isExists fs [] = true
    · simpa [hex] using hcl
    · simp only [hex, Bool.false_eq_true, if_false, doMut, mutApply]
      exact Fs.parentClosed_insertE _ hcl (Or.inl rfl)
  have hPex : isExists ((if isExists fs [] then (fs, ([] : List Mut))
      else doMut false fs (Mut.mkdirM [])).1) [] = true := by
    by_cases hex : isExists fs [] = true
    · simp [hex]
    · simp [hex, doMut, mutApply, isExists_eq, Fs.lookup_insertE]
  have hPe : ∀ q : Path, q ≠ [] →
      ((if isExists fs [] then (fs, ([] : List Mut))
        else doMut false fs (Mut.mkdirM [])).1).lookup q = fs.lookup q := by
    intro q hq
    by_cases hex : isExists fs [] = true
    · simp [hex]
    · simp only [hex, Bool.false_eq_true, if_false, doMut, mutApply]
      rw [show (fs.insertE [] TEntry.dir).lookup q
          = if ([] : Path) = q then some TEntry.dir else fs.lookup q from
        Fs.lookup_insertE fs [] q TEntry.dir]
      rw [if_neg (fun h => hq h.symm)]
  refine ⟨?_, ?_, ?_, ?_⟩
  · -- mirrored file positions
    intro hmem
    obtain ⟨n, s, _, hps⟩ := mem_filePositions_entries [] tree hmem
    have hpne : p ≠ [] := by rw [hps]; simp
    have hP_p := hPe p hpne
    rw [restoreEntries_filepos base [] tree _ hwf hmem]
    cases hfs : fs.lookup p with
    | none =>
        have h0 : ((if isExists fs [] then (fs, ([] : List Mut))
            else doMut false fs (Mut.mkdirM [])).1).lookup p = none := by
          rw [hP_p]; exact hfs
        have hmgd0 : isSymbolicLinkFrom fs p base = false := by
          rw [isSymbolicLinkFrom_eq, hfs]
        rcases applyEntries_char ign base [] tree _ h0 with hc | ⟨_, hc⟩ | ⟨hmm, hc⟩
        · rw [if_neg (by rw [isSymbolicLinkFrom_eq, hc]; simp), hc, hmgd0]
          simp [hfs]
        · rw [if_pos (managed_of_joinPath hc), hmgd0]
          simp [hfs]
        · exact absurd hmm (filePos_dirPos_disjoint_entries [] tree hwf hmem)
    | some e =>
        have h1 : ((applyEntries false ign base [] tree
            ((if isExists fs [] then (fs, ([] : List Mut))
              else doMut false fs (Mut.mkdirM [])).1)).fs).lookup p = some e :=
          applyEntries_preserve false ign base [] tree _ (by rw [hP_p]; exact hfs)
        rw [isSymbolicLinkFrom_congr base (h1.trans hfs.symm), h1]
  · -- mirrored directory positions
    intro hmem
    obtain ⟨n, s, _, hps⟩ := mem_dirPositions_entries [] tree hmem
    have hpne : p ≠ [] := by rw [hps]; simp
    have hP_p := hPe p hpne
    have hM := master_dirpos tree ign base []
      ((if isExists fs [] then (fs, ([] : List Mut))
        else doMut false fs (Mut.mkdirM [])).1)
      ((applyEntries false ign base [] tree
        ((if isExists fs [] then (fs, ([] : List Mut))
          else doMut false fs (Mut.mkdirM [])).1)).fs)
      p hwf hPcl (Or.inl hPex) (fun _ _ => rfl) hmem
    exact ⟨fun h0 => hM.1 (by rw [hP_p]; exact h0),
      fun e he => hM.2 e (by rw [hP_p]; exact he)⟩
  · -- outside the mirrored positions
    intro hf hd hpne
    rw [restoreEntries_frame false base [] tree _ hf hd,
      applyEntries_frame false ign base [] tree _ hf hd]
    exact hPe p hpne
  · -- the target root
    intro hp
    subst hp
    rw [restoreEntries_frame false base [] tree _
        (self_not_mem_filePositions_entries [] tree)
        (self_not_mem_dirPositions_entries [] tree),
      applyEntries_frame false ign base [] tree _
        (self_not_mem_filePositions_entries [] tree)
        (self_not_mem_dirPositions_entries [] tree)]
    by_cases hex : isExists fs [] = true
    · left; simp [hex]
    · right
      refine ⟨lookup_none_of_not_exists (by simpa using hex), ?_⟩
      simp [hex, doMut, mutApply, Fs.lookup_insertE]

/-- Claim C2 counterexample: a directory that already existed before apply
(and is empty) is pruned by the following restore, so the target tree is
not returned to its pre-apply state. -/
theorem apply_restore_roundtrip_cex :
    (([([], TEntry.dir), (["d"], TEntry.dir)] : Fs)).lookup ["d"] = some TEntry.dir ∧
    ((restoreTreeRun false "/b"
        (Entries.cons "d" (Node.dir (Entries.cons "f" Node.file Entries.nil)) Entries.nil)
        ((applyRun false (fun _ => false) "/b"
            (Entries.cons "d" (Node.dir (Entries.cons "f" Node.file Entries.nil)) Entries.nil)
            [([], TEntry.dir), (["d"], TEntry.dir)]).fs)).fs).lookup ["d"] = none := by
  constructor
  · rfl
  · decide

/-- Claim C2 witness for the amended round-trip theorem. -/
theorem apply_restore_roundtrip_witness :
    Entries.wf (Entries.cons "d" (Node.dir (Entries.cons "f" Node.file Entries.nil))
        Entries.nil) = true ∧
    Fs.parentClosed [([], TEntry.dir), (["d"], TEntry.dir),
        (["x"], TEntry.file "keep")] = true ∧
    ((restoreTreeRun false "/b"
        (Entries.cons "d" (Node.dir (Entries.cons "f" Node.file Entries.nil)) Entries.nil)
        ((applyRun false (fun _ => false) "/b"
            (Entries.cons "d" (Node.dir (Entries.cons "f" Node.file Entries.nil)) Entries.nil)
            [([], TEntry.dir), (["d"], TEntry.dir),
              (["x"], TEntry.file "keep")]).fs)).fs).lookup ["x"]
      = ([([], TEntry.dir), (["d"], TEntry.dir),
          (["x"], TEntry.file "keep")] : Fs).lookup ["x"] :=
  ⟨by decide, by decide,
    ((apply_restore_roundtrip (fun _ => false) "/b"
        (Entries.cons "d" (Node.dir (Entries.cons "f" Node.file Entries.nil)) Entries.nil)
        [([], TEntry.dir), (["d"], TEntry.dir), (["x"], TEntry.file "keep")]
        (by decide) (by decide) ["x"]).2.2.1
      (by decide) (by decide) (by decide))⟩

end Udot

namespace Udot

/-- Claim C6: managed-link classification.  isSymbolicLinkFrom holds
exactly when the target path holds a symbolic link whose raw link value
starts with the literal baseDir string; a plain file at the target path is
never classified as managed, regardless of its content. -/
theorem isManagedLink_classification (fs : Fs) (p : Path) (b : String) :
    (isSymbolicLinkFrom fs p b = true ↔
      ∃ v, fs.lookup p = some (TEntry.symlink v) ∧ strStartsWith v b = true) ∧
    (∀ c, fs.lookup p = some (TEntry.file c) → isSymbolicLinkFrom fs p b = false) := by
  constructor
  · rw [isSymbolicLinkFrom_eq]
    cases h : fs.lookup p with
    | none => simp
    | some e => cases e <;> simp
  · intro c hc
    rw [isSymbolicLinkFrom_eq, hc]

/-- Claim C6 witness: a link whose value starts with baseDir is managed; a
plain file whose content is byte-identical to that link value is not. -/
theorem isManagedLink_classification_witness :
    isSymbolicLinkFrom [(["x"], TEntry.symlink "/b/x")] ["x"] "/b" = true ∧
    isSymbolicLinkFrom [(["y"], TEntry.file "/b/x")] ["y"] "/b" = false :=
  ⟨((isManagedLink_classification [(["x"], TEntry.symlink "/b/x")] ["x"] "/b").1).2
      ⟨"/b/x", rfl, by decide⟩,
    (isManagedLink_classification [(["y"], TEntry.file "/b/x")] ["y"] "/b").2 "/b/x" rfl⟩

/-- Claim C5: ignore precedence.  With an excludes-file present its
non-empty trimmed lines fully replace the built-in defaults (the matching
predicate quantifies only over those lines plus the mandatory entries and
explicit excludes); without it the fixed default list is used; `.git` and
`README.md` are always ignored; and every explicit exclude pattern ignores
all names it matches, in both cases. -/
theorem ignore_precedence :
    (∀ content exclude name,
      getIgnoreFunction (some content) exclude name = true ↔
        ∃ pat ∈ nonEmptyTrimmedLines content ++ [".git", "README.md"] ++ exclude,
          patMatch pat name = true) ∧
    (∀ exclude name,
      getIgnoreFunction none exclude name = true ↔
        ∃ pat ∈ defaultIgnorePatterns ++ [".git", "README.md"] ++ exclude,
          patMatch pat name = true) ∧
    (∀ content exclude, getIgnoreFunction content exclude ".git" = true ∧
      getIgnoreFunction content exclude "README.md" = true) ∧
    (∀ content exclude pat name, pat ∈ exclude → patMatch pat name = true →
      getIgnoreFunction content exclude name = true) := by
  refine ⟨?_, ?_, ?_, ?_⟩
  · intro content exclude name
    simp only [getIgnoreFunction, getIgnorePatterns, List.any_eq_true,
      List.mem_append, List.mem_cons, List.not_mem_nil, or_false]
  · intro exclude name
    simp only [getIgnoreFunction, getIgnorePatterns, List.any_eq_true,
      List.mem_append, List.mem_cons, List.not_mem_nil, or_false]
  · intro content exclude
    constructor
    · rw [getIgnoreFunction, List.any_eq_true]
      refine ⟨".git", ?_, by decide⟩
      unfold getIgnorePatterns
      cases content <;> simp
    · rw [getIgnoreFunction, List.any_eq_true]
      refine ⟨"README.md", ?_, by decide⟩
      unfold getIgnorePatterns
      cases content <;> simp
  · intro content exclude pat name hmem hpm
    rw [getIgnoreFunction, List.any_eq_true]
    refine ⟨pat, ?_, hpm⟩
    unfold getIgnorePatterns
    cases content <;> simp [hmem]

/-- Claim C5 witness. -/
theorem ignore_precedence_witness :
    getIgnoreFunction (some " vim \nfoo\n\n") ["bootstrap.sh"] "bootstrap.sh" = true ∧
    getIgnoreFunction (some " vim \nfoo\n\n") [] ".git" = true ∧
    getIgnoreFunction (some " vim \nfoo\n\n") [] "node_modules" = false :=
  ⟨ignore_precedence.2.2.2 (some " vim \nfoo\n\n") ["bootstrap.sh"]
      "bootstrap.sh" "bootstrap.sh" (by decide) (by decide),
    (ignore_precedence.2.2.1 (some " vim \nfoo\n\n") []).1,
    by decide⟩

/-- Claim C7: the dry-run claim fails on the code.  update under the
dry-run flag still invokes external commands through a bare execSync: the
unwrapped `git pull --progress` of pull (and the `git status --porcelain`
of push), for every status output. -/
theorem dryrun_invokes_git_pull (statusOut : String) :
    GitEff.exec "git pull --progress" ∈ updateEffects true statusOut := by
  unfold updateEffects pullEffects
  simp

/-- Claim C8: ignore asymmetry.  Tree-mode restore consults no ignore
predicate: every managed link at every mirrored file position is removed,
ignored names included; while apply and ls skip an ignored entry outright. -/
theorem restore_ignore_asymmetry :
    (∀ (base : String) (tree : Entries) (fs : Fs) (p : Path),
      Entries.wf tree = true → p ∈ Entries.filePositions [] tree →
      isSymbolicLinkFrom fs p base = true →
      ((restoreTreeRun false base tree fs).fs).lookup p = none) ∧
    (∀ (dry : Bool) (ign : String → Bool) (base : String) (rel : Path)
        (name : String) (node : Node) (fs : Fs), ign name = true →
      applyEntry dry ign base rel name node fs = ⟨fs, [], []⟩) ∧
    (∀ (ign : String → Bool) (base : String) (rel : Path)
        (name : String) (node : Node) (fs : Fs), ign name = true →
      lsEntry ign base rel name node fs = []) := by
  refine ⟨?_, ?_, ?_⟩
  · intro base tree fs p hwf hmem hmgd
    rw [restoreTreeRun_fs_eq, restoreEntries_filepos base [] tree fs hwf hmem]
    simp [hmgd]
  · intro dry ign base rel name node fs hig
    unfold applyEntry; simp [hig]
  · intro ign base rel name node fs hig
    unfold lsEntry; simp [hig]

/-- Claim C8 witness: a managed link at a position apply would skip as
ignored (name `.git`) is still removed by restore, while applyEntry and
lsEntry skip that very entry. -/
theorem restore_ignore_asymmetry_witness :
    ((restoreTreeRun false "/b" (Entries.cons ".git" Node.file Entries.nil)
        [([], TEntry.dir), ([".git"], TEntry.symlink "/b/.git")]).fs).lookup [".git"]
      = none ∧
    applyEntry false (fun n => n == ".git") "/b" [] ".git" Node.file
        [([], TEntry.dir), ([".git"], TEntry.symlink "/b/.git")]
      = ⟨[([], TEntry.dir), ([".git"], TEntry.symlink "/b/.git")], [], []⟩ ∧
    lsEntry (fun n => n == ".git") "/b" [] ".git" Node.file
        [([], TEntry.dir), ([".git"], TEntry.symlink "/b/.git")] = [] :=
  ⟨restore_ignore_asymmetry.1 "/b" (Entries.cons ".git" Node.file Entries.nil)
      [([], TEntry.dir), ([".git"], TEntry.symlink "/b/.git")] [".git"]
      (by decide) (by decide) (by decide),
    restore_ignore_asymmetry.2.1 false (fun n => n == ".git") "/b" [] ".git"
      Node.file [([], TEntry.dir), ([".git"], TEntry.symlink "/b/.git")] (by decide),
    restore_ignore_asymmetry.2.2 (fun n => n == ".git") "/b" [] ".git"
      Node.file [([], TEntry.dir), ([".git"], TEntry.symlink "/b/.git")] (by decide)⟩

/-- Claim C9 counterexample: single-path restore on a non-existent path
propagates the lstat failure as an error (the code has no catch around that
lstat), contradicting "never raised or surfaced". -/
theorem negative_lookup_cex :
    restoreSingle false "/b" [] ["missing"] [] Entries.nil
      = Except.error "ENOENT" := rfl

/-- Claim C9 (amended): stat/lstat/access failures inside the exists check
and the symbolic-link check are converted into a normal false result and
never propagate; but the initial lstat of single-path restore has no catch,
so on a non-existent path it surfaces an ENOENT error. -/
theorem negative_lookups_not_errors :
    (∀ (fs : Fs) (p : Path) (msg : String), Fs.access fs p = Except.error msg →
      isExists fs p = false) ∧
    (∀ (fs : Fs) (p : Path) (msg : String), Fs.lstatE fs p = Except.error msg →
      isSymbolicLinkExists fs p = false) ∧
    (∀ (dry : Bool) (base : String) (fs : Fs) (fp relAt : Path) (sub : Entries),
      fs.lookup fp = none →
      restoreSingle dry base fs fp relAt sub = Except.error "ENOENT") := by
  refine ⟨?_, ?_, ?_⟩
  · intro fs p msg h; unfold isExists; rw [h]
  · intro fs p msg h; unfold isSymbolicLinkExists; rw [h]
  · intro dry base fs fp relAt sub h
    unfold restoreSingle Fs.lstatE
    rw [h]

/-- Claim C9 witness. -/
theorem negative_lookups_not_errors_witness :
    isExists [] ["gone"] = false ∧
    isSymbolicLinkExists [] ["gone"] = false ∧
    restoreSingle true "/b" [(["x"], TEntry.dir)] ["gone"] [] Entries.nil
      = Except.error "ENOENT" :=
  ⟨negative_lookups_not_errors.1 [] ["gone"] "ENOENT" rfl,
    negative_lookups_not_errors.2.1 [] ["gone"] "ENOENT" rfl,
    negative_lookups_not_errors.2.2 true "/b" [(["x"], TEntry.dir)] ["gone"] []
      Entries.nil (by decide)⟩

/-- Claim C10: the ownership test is a raw textual-prefix comparison, so a
symlink whose raw value merely extends the baseDir string without lying
inside that directory is classified as managed, and tree-mode restore
unlinks it at a mirrored file position. -/
theorem textual_prefixExtension_unlinked
    (fs : Fs) (tree : Entries) (base : String) (p : Path) (v : String)
    (hwf : Entries.wf tree = true) (hmem : p ∈ Entries.filePositions [] tree)
    (hlink : fs.lookup p = some (TEntry.symlink v))
    (hpre : strStartsWith v base = true)
    (_hnotin : strStartsWith v (base ++ "/") = false) :
    isSymbolicLinkFrom fs p base = true ∧
    ((restoreTreeRun false base tree fs).fs).lookup p = none := by
  have hmgd : isSymbolicLinkFrom fs p base = true := by
    rw [isSymbolicLinkFrom_eq, hlink]; exact hpre
  refine ⟨hmgd, ?_⟩
  rw [restoreTreeRun_fs_eq, restoreEntries_filepos base [] tree fs hwf hmem]
  simp [hmgd]

/-- Claim C10 witness: a foreign link into `/home/u/.dotfiles-backup` is
treated as managed for baseDir `/home/u/.dotfiles` and removed. -/
theorem textual_prefixExtension_unlinked_witness :
    isSymbolicLinkFrom
        [([], TEntry.dir), (["x"], TEntry.symlink "/home/u/.dotfiles-backup/x")]
        ["x"] "/home/u/.dotfiles" = true ∧
    ((restoreTreeRun false "/home/u/.dotfiles"
        (Entries.cons "x" Node.file Entries.nil)
        [([], TEntry.dir),
          (["x"], TEntry.symlink "/home/u/.dotfiles-backup/x")]).fs).lookup ["x"]
      = none :=
  textual_prefixExtension_unlinked
    [([], TEntry.dir), (["x"], TEntry.symlink "/home/u/.dotfiles-backup/x")]
    (Entries.cons "x" Node.file Entries.nil) "/home/u/.dotfiles" ["x"]
    "/home/u/.dotfiles-backup/x" (by decide) (by decide) rfl (by decide) (by decide)

end Udot
